import Mathlib

/-!
Verification development for the FCE error-correction repository.

The online pipeline lives in `backend/FCEServer/fastapi_server.py`; the offline
training-example builder and its tokenizers live in
`data-and-research/train-fce-model/`.  Strings are modelled as `List Char`
(the ASCII fragment of Python `str`): the character classes `\w`, `\s`, `\d`
of Python's `re` module are modelled by their ASCII restrictions.
-/

set_option autoImplicit false

namespace FCE

/-- One Python token (an element of the lists produced by `_wp_tokenize`). -/
abbrev Token := List Char

/-- The apostrophe character (ASCII 39). -/
def apostropheChar : Char := Char.ofNat 39

/-- ASCII model of Python's `\s` class: space, tab, newline, carriage return,
vertical tab, form feed. -/
def isPySpace (c : Char) : Bool :=
  c = ' ' || c = '\t' || c = '\n' || c = '\r' || c = Char.ofNat 11 || c = Char.ofNat 12

/-- ASCII model of Python's `\w` class: letters, digits and underscore. -/
def isWordChar (c : Char) : Bool :=
  c.isAlpha || c.isDigit || c = '_'

/-- Python's `str.strip()` restricted to ASCII whitespace: drop leading and
trailing whitespace. -/
def pyStrip (s : List Char) : List Char :=
  ((s.dropWhile isPySpace).reverse.dropWhile isPySpace).reverse

/-- Python's `str.lower()` restricted to ASCII. -/
def pyLower (s : List Char) : List Char :=
  s.map Char.toLower

/-- Fuel-based recursion for `wp_tokenize` (structural in `fuel`, so that the
definition evaluates by kernel reduction); `fuel` bounds the number of tokens
still to be produced, and `wp_tokenize` supplies the sufficient fuel
`s.length`. -/
def wp_tokenizeF : Nat → List Char → List Token
  | _, [] => []
  | 0, _ :: _ => []
  | fuel + 1, c :: rest =>
    if c.isAlpha then
      match rest.dropWhile Char.isAlpha with
      | q :: d :: r3 =>
        if q = apostropheChar ∧ d.isAlpha then
          ((c :: rest.takeWhile Char.isAlpha) ++ q :: d :: r3.takeWhile Char.isAlpha) ::
            wp_tokenizeF fuel (r3.dropWhile Char.isAlpha)
        else
          (c :: rest.takeWhile Char.isAlpha) :: wp_tokenizeF fuel (q :: d :: r3)
      | r1 => (c :: rest.takeWhile Char.isAlpha) :: wp_tokenizeF fuel r1
    else if c.isDigit then
      (c :: rest.takeWhile Char.isDigit) :: wp_tokenizeF fuel (rest.dropWhile Char.isDigit)
    else if ¬ isWordChar c ∧ ¬ isPySpace c then
      [c] :: wp_tokenizeF fuel rest
    else
      wp_tokenizeF fuel rest

/-- `_wp_tokenize` of `fastapi_server.py` (line 182):
`re.findall(r"[A-Za-z]+(?:'[A-Za-z]+)?|\d+|[^\w\s]", text)`.
`re.findall` scans left to right; at each position the first alternative that
matches wins, and each alternative is matched greedily (maximal munch): a
maximal run of ASCII letters, optionally extended by a single apostrophe
followed by a maximal run of letters; or a maximal run of digits; or a single
character that is neither a word character nor whitespace.  Characters matched
by no alternative (whitespace, and word characters such as `_` that are not
letters or digits) produce no token. -/
def wp_tokenize (s : List Char) : List Token :=
  wp_tokenizeF s.length s

/-- Fuel-based recursion for `wp_tokenize_train`. -/
def wp_tokenize_trainF : Nat → List Char → List Token
  | _, [] => []
  | 0, _ :: _ => []
  | fuel + 1, c :: rest =>
    if isWordChar c then
      (c :: rest.takeWhile isWordChar) :: wp_tokenize_trainF fuel (rest.dropWhile isWordChar)
    else if ¬ isPySpace c then
      [c] :: wp_tokenize_trainF fuel rest
    else
      wp_tokenize_trainF fuel rest

/-- `_wp_tokenize` of `train_fce_error_tagger.py` (line 427):
`re.findall(r"\w+|[^\w\s]", s, re.UNICODE)`: a maximal run of word
characters, or a single character that is neither a word character nor
whitespace; whitespace produces no token. -/
def wp_tokenize_train (s : List Char) : List Token :=
  wp_tokenize_trainF s.length s

/-- Fuel-based recursion for `wp_tokenize_test`. -/
def wp_tokenize_testF : Nat → List Char → List Token
  | _, [] => []
  | 0, _ :: _ => []
  | fuel + 1, c :: rest =>
    if isWordChar c then
      (c :: rest.takeWhile isWordChar) :: wp_tokenize_testF fuel (rest.dropWhile isWordChar)
    else if ¬ isPySpace c then
      [c] :: wp_tokenize_testF fuel rest
    else
      wp_tokenize_testF fuel rest

/-- `FCEErrorCorrector._wp_tokenize` of `test_fce_grammar_corrector.py`
(line 88): `re.findall(r"\w+|[^\w\s]", s, re.UNICODE)`, same regex as the
training script, embedded independently. -/
def wp_tokenize_test (s : List Char) : List Token :=
  wp_tokenize_testF s.length s

/-! ### difflib.SequenceMatcher

`identify_changes` builds `difflib.SequenceMatcher(None, o_tokens, c_tokens)`
and consumes `get_opcodes()`.  The matcher is embedded below:
`b2jGet` models the `b2j` mapping built by `__chain_b` (with `isjunk = None`,
so the junk set is empty, and with the default `autojunk = True` purge of
popular elements when `len(b) >= 200`); `findLongestMatch` models
`find_longest_match`; `matchingBlocksAux`/`nonAdjacentBlocks` model
`get_matching_blocks` (the queue-and-sort formulation is realised as the
equivalent in-order recursion); `opcodesLoop` models `get_opcodes`. -/

/-- A matching block `(i, j, size)`: `a[i : i+size] == b[j : j+size]`. -/
structure SMatch where
  i : Nat
  j : Nat
  size : Nat
  deriving DecidableEq, Repr

/-- Index scan for `b2jPositions`: positions (offset by `i`) of `t` in the
remaining list, in ascending order, mirroring
`for i, elt in enumerate(b): b2j.setdefault(elt, []).append(i)`. -/
def b2jPositionsAux (t : Token) : Nat → List Token → List Nat
  | _, [] => []
  | i, x :: xs =>
    if x = t then i :: b2jPositionsAux t (i + 1) xs else b2jPositionsAux t (i + 1) xs

/-- The ascending list of indices of `b` holding the element `t`
(the content of the `b2j` dict before the autojunk purge). -/
def b2jPositions (b : List Token) (t : Token) : List Nat :=
  b2jPositionsAux t 0 b

/-- Autojunk: with `len(b) >= 200`, elements occurring more than
`len(b) // 100 + 1` times are popular and removed from `b2j`. -/
def isPopular (b : List Token) (t : Token) : Bool :=
  200 ≤ b.length ∧ b.length / 100 + 1 < (b2jPositions b t).length

/-- `b2j.get(t, [])` after the autojunk purge (`isjunk` is `None` at both
call sites in the repository, so no junk purge applies). -/
def b2jGet (b : List Token) (t : Token) : List Nat :=
  if isPopular b t then [] else b2jPositions b t

/-- `d.get(k, default)` for the `j2len`/`newj2len` dicts. -/
def alistGetD : List (Nat × Nat) → Nat → Nat → Nat
  | [], _, d => d
  | (k', v) :: rest, k, d => if k' = k then v else alistGetD rest k d

/-- `d[k] = v` for the `newj2len` dict. -/
def alistPut : List (Nat × Nat) → Nat → Nat → List (Nat × Nat)
  | [], k, v => [(k, v)]
  | (k', v') :: rest, k, v =>
    if k' = k then (k, v) :: rest else (k', v') :: alistPut rest k v

/-- The inner loop of `find_longest_match` over `b2j[a[i]]` for one `i`:
`for j in b2j.get(a[i], []): if j < blo: continue; if j >= bhi: break;
k = newj2len[j] = j2len.get(j-1, 0) + 1; if k > bestsize: best = (i-k+1, j-k+1, k)`.
Returns the `newj2len` accumulator and the updated best match.
(Python's `j2len.get(j-1, 0)` at `j = 0` looks up key `-1` and misses.) -/
def jloop (j2len : List (Nat × Nat)) (blo bhi i : Nat) :
    List Nat → List (Nat × Nat) → SMatch → List (Nat × Nat) × SMatch
  | [], new, best => (new, best)
  | j :: js, new, best =>
    if j < blo then jloop j2len blo bhi i js new best
    else if bhi ≤ j then (new, best)
    else
      let k := (if j = 0 then 0 else alistGetD j2len (j - 1) 0) + 1
      let best' := if best.size < k then SMatch.mk (i + 1 - k) (j + 1 - k) k else best
      jloop j2len blo bhi i js (alistPut new j k) best'

/-- The outer loop of `find_longest_match`: `for i in range(alo, ahi)`,
threading `j2len` and the best match (structural in `fuel`;
`findLongestMatch` supplies the exact fuel `ahi - alo`, and the recursive
call's fuel `ahi - (i+1)` is exactly one less). -/
def iloopF (a : List Token) (b2 : Token → List Nat) (blo bhi : Nat) :
    Nat → Nat → Nat → List (Nat × Nat) → SMatch → SMatch
  | 0, _, _, _, best => best
  | fuel + 1, i, ahi, j2len, best =>
    if i < ahi then
      match jloop j2len blo bhi i (b2 (a.getD i [])) [] best with
      | (new, best') => iloopF a b2 blo bhi fuel (i + 1) ahi new best'
    else best

/-- The first extension loop of `find_longest_match`:
`while besti > alo and bestj > blo and not isbjunk(b[bestj-1]) and
a[besti-1] == b[bestj-1]: besti, bestj, bestsize = besti-1, bestj-1, bestsize+1`.
The junk set is empty (`isjunk = None`), so `not isbjunk(...)` is always true
and the second pair of (junk-)extension loops never fires.  Structural in
`fuel`; `extendLeft` supplies the exact fuel `m.i` (the loop decrements
`besti` and stops at the latest when it reaches `alo`). -/
def extendLeftF (a b : List Token) (alo blo : Nat) : Nat → SMatch → SMatch
  | 0, m => m
  | fuel + 1, m =>
    if alo < m.i ∧ blo < m.j ∧ a.getD (m.i - 1) [] = b.getD (m.j - 1) [] then
      extendLeftF a b alo blo fuel (SMatch.mk (m.i - 1) (m.j - 1) (m.size + 1))
    else m

/-- The `while` loop extending the best match to the left, at fuel `m.i`
(when the fuel hits `0`, `besti = 0 ≤ alo` and the loop guard is false
anyway, so the fuel never truncates the loop). -/
def extendLeft (a b : List Token) (alo blo : Nat) (m : SMatch) : SMatch :=
  extendLeftF a b alo blo m.i m

/-- The second extension loop of `find_longest_match`:
`while besti+bestsize < ahi and bestj+bestsize < bhi and
not isbjunk(b[bestj+bestsize]) and a[besti+bestsize] == b[bestj+bestsize]:
bestsize += 1` (junk set empty as above).  Structural in `fuel`;
`extendRight` supplies the exact fuel `ahi - (m.i + m.size)`. -/
def extendRightF (a b : List Token) (ahi bhi : Nat) : Nat → SMatch → SMatch
  | 0, m => m
  | fuel + 1, m =>
    if m.i + m.size < ahi ∧ m.j + m.size < bhi ∧
        a.getD (m.i + m.size) [] = b.getD (m.j + m.size) [] then
      extendRightF a b ahi bhi fuel (SMatch.mk m.i m.j (m.size + 1))
    else m

/-- The `while` loop extending the best match to the right, at fuel
`ahi - (m.i + m.size)` (at fuel `0` the loop guard is false anyway). -/
def extendRight (a b : List Token) (ahi bhi : Nat) (m : SMatch) : SMatch :=
  extendRightF a b ahi bhi (ahi - (m.i + m.size)) m

/-- `find_longest_match(alo, ahi, blo, bhi)`. -/
def findLongestMatch (a b : List Token) (b2 : Token → List Nat)
    (alo ahi blo bhi : Nat) : SMatch :=
  extendRight a b ahi bhi
    (extendLeft a b alo blo
      (iloopF a b2 blo bhi (ahi - alo) alo ahi [] (SMatch.mk alo blo 0)))

/-- The recursive core of `get_matching_blocks`: find the longest match, then
recurse on the ranges to its left and to its right.  Python drives this with
an explicit queue and sorts the collected blocks afterwards; in-order recursion
yields the same sorted list.  The range bounds in the guard always hold
(`findLongestMatch_sound` below), so the guard is equivalent to Python's
`if k:`.  Structural in `fuel`; fuel `ahi - alo` suffices since both
recursive calls shrink their range strictly. -/
def matchingBlocksAuxF (a b : List Token) (b2 : Token → List Nat) :
    Nat → Nat → Nat → Nat → Nat → List SMatch
  | 0, _, _, _, _ => []
  | fuel + 1, alo, ahi, blo, bhi =>
    match findLongestMatch a b b2 alo ahi blo bhi with
    | SMatch.mk mi mj msz =>
      if 0 < msz ∧ alo ≤ mi ∧ mi + msz ≤ ahi ∧ blo ≤ mj ∧ mj + msz ≤ bhi then
        matchingBlocksAuxF a b b2 fuel alo mi blo mj ++
          SMatch.mk mi mj msz :: matchingBlocksAuxF a b b2 fuel (mi + msz) ahi (mj + msz) bhi
      else []

/-- The recursive block collection over a range, at fuel `ahi - alo`. -/
def matchingBlocksAux (a b : List Token) (b2 : Token → List Nat)
    (alo ahi blo bhi : Nat) : List SMatch :=
  matchingBlocksAuxF a b b2 (ahi - alo) alo ahi blo bhi

/-- The merge loop at the end of `get_matching_blocks`, collapsing blocks that
are adjacent in both sequences; the accumulator `(i1, j1, k1)` starts at
`(0, 0, 0)` and a block is flushed when the next one is not adjacent. -/
def nonAdjacentAux : Nat → Nat → Nat → List SMatch → List SMatch
  | i1, j1, k1, [] => if k1 ≠ 0 then [SMatch.mk i1 j1 k1] else []
  | i1, j1, k1, m :: rest =>
    if i1 + k1 = m.i ∧ j1 + k1 = m.j then
      nonAdjacentAux i1 j1 (k1 + m.size) rest
    else
      (if k1 ≠ 0 then [SMatch.mk i1 j1 k1] else []) ++ nonAdjacentAux m.i m.j m.size rest

/-- `get_matching_blocks()`: merged blocks followed by the sentinel
`(len(a), len(b), 0)`. -/
def getMatchingBlocks (a b : List Token) : List SMatch :=
  nonAdjacentAux 0 0 0 (matchingBlocksAux a b (b2jGet b) 0 a.length 0 b.length) ++
    [SMatch.mk a.length b.length 0]

/-- Opcode tags of `SequenceMatcher.get_opcodes`. -/
inductive OpTag where
  | equal
  | replace
  | delete
  | insert
  deriving DecidableEq, Repr

/-- One opcode `(tag, i1, i2, j1, j2)`. -/
structure Opcode where
  tag : OpTag
  i1 : Nat
  i2 : Nat
  j1 : Nat
  j2 : Nat
  deriving DecidableEq, Repr

/-- The loop of `get_opcodes`: walk the matching blocks with the cursor
`(i, j)`, emitting a `replace`/`delete`/`insert` opcode for the gap before
each block and an `equal` opcode for every non-empty block. -/
def opcodesLoop : Nat → Nat → List SMatch → List Opcode
  | _, _, [] => []
  | i, j, m :: rest =>
    (if i < m.i ∧ j < m.j then [Opcode.mk OpTag.replace i m.i j m.j]
     else if i < m.i then [Opcode.mk OpTag.delete i m.i j m.j]
     else if j < m.j then [Opcode.mk OpTag.insert i m.i j m.j]
     else []) ++
    (if m.size ≠ 0 then
        [Opcode.mk OpTag.equal m.i (m.i + m.size) m.j (m.j + m.size)]
      else []) ++
    opcodesLoop (m.i + m.size) (m.j + m.size) rest

/-- `SequenceMatcher(None, a, b).get_opcodes()`. -/
def getOpcodes (a b : List Token) : List Opcode :=
  opcodesLoop 0 0 (getMatchingBlocks a b)

/-! ### The change pipeline of `fastapi_server.py` -/

/-- The three change kinds written into `change["type"]` by
`identify_changes` (the strings `"replaced"`, `"deleted"`, `"added"`). -/
inductive EditType where
  | replaced
  | deleted
  | added
  deriving DecidableEq, Repr

/-- One change dict as built by `identify_changes`. -/
structure Change where
  type : EditType
  fromText : Option (List Char)
  toText : Option (List Char)
  error_type : String
  micro_feedback : String
  deriving DecidableEq, Repr

/-- The `ARTICLES` set (`{"a", "an", "the"}`). -/
def ARTICLES : List (List Char) :=
  ["a".toList, "an".toList, "the".toList]

/-- The `MICRO_FEEDBACK` dict of `fastapi_server.py` (lines 45-60). -/
def MICRO_FEEDBACK : List (String × String) :=
  [("agreement/plural",
    "Check agreement (subject–verb and singular/plural nouns). For 3rd person singular, use \x27does/has/is\x27 and add -s where needed."),
   ("articles/determiners",
    "Check articles and determiners (a/an/the/your). Use them when needed and remove extra ones."),
   ("verb tense/form",
    "Check verb tense and verb form (e.g., past vs present, infinitive vs -ing)."),
   ("prepositions",
    "Check the preposition choice (e.g., \x27in July\x27 not \x27on July\x27)."),
   ("spelling", "Fix spelling mistakes."),
   ("word choice/form", "Use the correct word or word form for the meaning."),
   ("missing word",
    "A word is missing—add the word needed for a complete/grammatical phrase."),
   ("unnecessary word", "Remove extra words that aren’t needed."),
   ("punctuation", "Fix punctuation (commas, full stops, capitalization)."),
   ("word order", "Adjust word order to match natural English structure."),
   ("other", "Review this part for grammar/usage.")]

/-- `_micro_feedback_for`: `MICRO_FEEDBACK.get(error_type, MICRO_FEEDBACK["other"])`. -/
def micro_feedback_for (error_type : String) : String :=
  match MICRO_FEEDBACK.lookup error_type with
  | some tip => tip
  | none => "Review this part for grammar/usage."

/-- The folding applied by `_predict_error_type_heuristic` to both texts:
`(raw or "").strip().lower() if raw else ""` (a missing or empty text folds
to the empty string either way). -/
def heuristicFold : Option (List Char) → List Char
  | none => []
  | some s => pyLower (pyStrip s)

/-- `_predict_error_type_heuristic` (lines 196-215): ordered rules over the
stripped-and-lowercased texts. -/
def predict_error_type_heuristic (change : Change) : String :=
  let frm := heuristicFold change.fromText
  let tov := heuristicFold change.toText
  if change.type = EditType.added ∧ tov ∈ ARTICLES then
    "articles/determiners"
  else if change.type = EditType.replaced ∧ frm ≠ [] ∧ tov ≠ [] ∧
      (frm ++ ['s'] = tov ∨ frm ++ ['e', 's'] = tov ∨
        (frm.getLast? = some 'y' ∧ frm.dropLast ++ ['i', 'e', 's'] = tov)) then
    "agreement/plural"
  else if change.type = EditType.added then "missing word"
  else if change.type = EditType.deleted then "unnecessary word"
  else "other"

/-- `_normalize_pair_for_clf`: `f"INC: {frm} || COR: {to}"` over the stripped
texts (`None` treated as the empty string). -/
def normalize_pair_for_clf (frm tov : Option (List Char)) : List Char :=
  "INC: ".toList ++ pyStrip (frm.getD []) ++ " || COR: ".toList ++ pyStrip (tov.getD [])

/-- The external error-type classifier: an opaque capability whose `predict`
call either returns a label or raises (modelled as `Except`). -/
def Clf : Type := List Char → Except String String

/-- The classifier-related state of the `ModelManager`
(`error_clf_loaded` / `error_clf`). -/
structure ModelManagerState where
  error_clf_loaded : Bool
  error_clf : Option Clf

/-- A manager state with no classifier loaded. -/
def mmNone : ModelManagerState :=
  ModelManagerState.mk false none

/-- `_predict_error_type` (lines 218-226): if the classifier is loaded and
present, try `predict` and return its label; on any exception fall through;
in all remaining cases return the heuristic's result. -/
def predict_error_type (mm : ModelManagerState) (change : Change) : String :=
  match mm.error_clf_loaded, mm.error_clf with
  | true, some clf =>
    match clf (normalize_pair_for_clf change.fromText change.toText) with
    | Except.ok lbl => lbl
    | Except.error _ => predict_error_type_heuristic change
  | _, _ => predict_error_type_heuristic change

/-- `" ".join(tokens)`. -/
def joinSpace : List Token → List Char
  | [] => []
  | [t] => t
  | t :: t' :: ts => t ++ ' ' :: joinSpace (t' :: ts)

/-- Python's `str.replace(" " + p, p)` for a one-character `p`: replace every
non-overlapping occurrence of the two-character pattern, scanning left to
right and continuing after each replacement. -/
def replaceSpaceBefore (p : Char) : List Char → List Char
  | [] => []
  | [c] => [c]
  | c :: d :: rest =>
    if c = ' ' ∧ d = p then p :: replaceSpaceBefore p rest
    else c :: replaceSpaceBefore p (d :: rest)

/-- The de-tokenization cleanup applied to each joined segment:
`.replace(" ,", ",").replace(" .", ".")`. -/
def cleanupSegment (s : List Char) : List Char :=
  replaceSpaceBefore '.' (replaceSpaceBefore ',' s)

/-- One detokenized segment: `" ".join(tokens[i1:i2]).replace(" ,", ",").replace(" .", ".")`. -/
def segmentText (tokens : List Token) (i1 i2 : Nat) : List Char :=
  cleanupSegment (joinSpace ((tokens.drop i1).take (i2 - i1)))

/-- The change dict built for one non-`equal` opcode, before and after error
typing: segments, kind mapping (`replace→replaced`, `delete→deleted` with
`to = None`, `insert→added` with `from = None`), then `error_type` and
`micro_feedback`. -/
def mkChange (mm : ModelManagerState) (o_tokens c_tokens : List Token)
    (op : Opcode) : Change :=
  let original_segment := segmentText o_tokens op.i1 op.i2
  let corrected_segment := segmentText c_tokens op.j1 op.j2
  let base :=
    match op.tag with
    | OpTag.delete => Change.mk EditType.deleted (some original_segment) none "" ""
    | OpTag.insert => Change.mk EditType.added none (some corrected_segment) "" ""
    | _ => Change.mk EditType.replaced (some original_segment) (some corrected_segment) "" ""
  let et := predict_error_type mm base
  { base with error_type := et, micro_feedback := micro_feedback_for et }

/-- The opcode loop of `identify_changes`: skip `equal` opcodes, build a
change for each other opcode, and stop once 50 changes have been collected
(`if len(changes) >= 50: break` runs after the append). `count` is the number
of changes collected so far. -/
def changesLoop (mm : ModelManagerState) (o_tokens c_tokens : List Token) :
    List Opcode → Nat → List Change
  | [], _ => []
  | op :: rest, count =>
    if op.tag = OpTag.equal then changesLoop mm o_tokens c_tokens rest count
    else
      mkChange mm o_tokens c_tokens op ::
        (if 50 ≤ count + 1 then []
         else changesLoop mm o_tokens c_tokens rest (count + 1))

/-- `identify_changes(original, corrected)` (lines 229-260), with the
module-level `model_manager` passed explicitly. -/
def identify_changes (mm : ModelManagerState) (original corrected : List Char) :
    List Change :=
  let o_tokens := wp_tokenize original
  let c_tokens := wp_tokenize corrected
  changesLoop mm o_tokens c_tokens (getOpcodes o_tokens c_tokens) 0

/-- The result dict returned by `correct_text`. -/
structure CorrectionResult where
  original : List Char
  corrected : List Char
  prompt : List Char
  num_errors : Nat
  score : Int
  changes : List Change
  has_errors : Bool

/-- The change-detection tail of `correct_text` (lines 289-301), with the
opaque seq2seq generation step factored out: `corrected` is the decoded model
output, injected as an argument.  `num_errors = len(changes)`,
`score = max(0, 10 - num_errors)`, `has_errors = num_errors > 0`. -/
def correct_text (mm : ModelManagerState) (student_input corrected prompt : List Char) :
    CorrectionResult :=
  let changes := identify_changes mm student_input corrected
  let num_errors := changes.length
  let score : Int := max 0 (10 - (num_errors : Int))
  CorrectionResult.mk student_input corrected prompt num_errors score changes
    (decide (0 < num_errors))

/-! ### The offline training-example builder (`train_fce_error_tagger.py`) -/

/-- One corpus correction triple (dict access via `.get`, hence `Option`). -/
structure FCECorrection where
  error_type : Option String
  incorrect : Option String
  correct : Option String

/-- One corpus item: `item.get("corrections", [])`. -/
structure FCEItem where
  corrections : List FCECorrection

/-- The `FCE_TO_FRIENDLY` fine-to-coarse code table
(`train_fce_error_tagger.py` lines 102-135). -/
def FCE_TO_FRIENDLY : List (String × String) :=
  [("AGN", "agreement/plural"), ("AGV", "agreement/plural"), ("AGA", "agreement/plural"),
   ("MD", "articles/determiners"), ("MA", "articles/determiners"),
   ("DD", "articles/determiners"), ("UA", "articles/determiners"),
   ("TV", "verb tense/form"), ("FV", "verb tense/form"), ("RV", "verb tense/form"),
   ("UV", "verb tense/form"),
   ("RT", "prepositions"),
   ("S", "spelling"),
   ("RJ", "word choice/form"), ("RN", "word choice/form"), ("FN", "word choice/form"),
   ("R", "word choice/form"), ("ID", "word choice/form"),
   ("MT", "missing word"), ("UT", "unnecessary word"),
   ("RP", "punctuation"), ("MP", "punctuation"), ("UP", "punctuation"),
   ("W", "word order")]

/-- `FCE_TO_FRIENDLY.get(fce_code, "other")`. -/
def fceToFriendly (code : String) : String :=
  match FCE_TO_FRIENDLY.lookup code with
  | some friendly => friendly
  | none => "other"

/-- The closed category taxonomy: the values of the fine-to-coarse table
together with the catch-all `"other"`. -/
def taxonomy : List String :=
  FCE_TO_FRIENDLY.map Prod.snd ++ ["other"]

/-- Python `str.strip()` on `String` (ASCII model). -/
def pyStripS (s : String) : String :=
  String.mk (pyStrip s.toList)

/-- The per-triple body of `build_error_type_examples` (lines 521-543):
`fce_code = (corr.get("error_type") or "UNKNOWN").strip()`;
`inc`/`cor` are the stripped texts (`None` → `""`); skip the triple when both
are empty, when both tokenize below the minimum length 1, or when either
tokenizes above the maximum length 40; otherwise emit the labelled example
`("INC: <inc> || COR: <cor>", FCE_TO_FRIENDLY.get(fce_code, "other"))`. -/
def corrExample (corr : FCECorrection) : Option (List Char × String) :=
  let fce_code :=
    pyStripS (match corr.error_type with
              | none => "UNKNOWN"
              | some s => if s = "" then "UNKNOWN" else s)
  let inc := pyStrip (corr.incorrect.getD "").toList
  let cor := pyStrip (corr.correct.getD "").toList
  if inc = [] ∧ cor = [] then none
  else
    let inc_tokens := wp_tokenize_train inc
    let cor_tokens := wp_tokenize_train cor
    if inc_tokens.length < 1 ∧ cor_tokens.length < 1 then none
    else if 40 < inc_tokens.length ∨ 40 < cor_tokens.length then none
    else
      some ("INC: ".toList ++ inc ++ " || COR: ".toList ++ cor, fceToFriendly fce_code)

/-- `build_error_type_examples(data)`: the parallel lists `X`, `y` are
modelled as one list of `(text, label)` pairs, in iteration order. -/
def build_error_type_examples (data : List FCEItem) : List (List Char × String) :=
  (data.map (fun item => item.corrections.filterMap corrExample)).flatten

/-! ### Predicates used by the verification theorems -/

/-- Well-formed token shapes for the server tokenizer `wp_tokenize`: a letter
run optionally extended by one apostrophe-letter group, a digit run, or a
single character that is neither a word character nor whitespace. -/
def isGoodToken (t : List Char) : Bool :=
  (decide (t.takeWhile Char.isAlpha ≠ []) &&
    (match t.dropWhile Char.isAlpha with
     | [] => true
     | q :: m => q = apostropheChar && decide (m ≠ []) && m.all Char.isAlpha)) ||
  (decide (t ≠ []) && t.all Char.isDigit) ||
  (match t with
   | [c] => ¬ isWordChar c && ¬ isPySpace c
   | _ => false)

/-- `s` contains the two-character pattern `[x, y]` as adjacent characters. -/
def containsPair (x y : Char) : List Char → Bool
  | c :: d :: rest => (c = x ∧ d = y) || containsPair x y (d :: rest)
  | _ => false

/-- An optional segment text is clean when it contains neither a space
immediately before a comma nor a space immediately before a period. -/
def segClean : Option (List Char) → Bool
  | none => true
  | some s => !(containsPair ' ' ',' s) && !(containsPair ' ' '.' s)

/-- The opcodes `ops` tile the token ranges exactly from cursor `(i, j)` to
`(iEnd, jEnd)`: consecutive opcodes are contiguous on both sides (each starts
where the previous one ended), every range is well-ordered, and the final
opcode ends exactly at `(iEnd, jEnd)`. -/
def opcodesTile : Nat → Nat → Nat → Nat → List Opcode → Prop
  | i, j, iEnd, jEnd, [] => i = iEnd ∧ j = jEnd
  | i, j, iEnd, jEnd, op :: rest =>
    op.i1 = i ∧ op.j1 = j ∧ op.i1 ≤ op.i2 ∧ op.j1 ≤ op.j2 ∧
      opcodesTile op.i2 op.j2 iEnd jEnd rest

/-- The matching blocks `bs` are cursor-monotone from `(x, y)`: each block
starts at or after the running cursor on both sides. -/
def BChain : Nat → Nat → List SMatch → Prop
  | _, _, [] => True
  | x, y, m :: rest => x ≤ m.i ∧ y ≤ m.j ∧ BChain (m.i + m.size) (m.j + m.size) rest

/-- Range soundness of a best match for `find_longest_match` over
`[alo, ahi) x [blo, bhi)`: the match starts inside the ranges, a non-empty
match also ends inside them, and an empty match still sits at `(alo, blo)`
(the initial best). -/
def WFbest (alo blo ahi bhi : Nat) (m : SMatch) : Prop :=
  alo ≤ m.i ∧ blo ≤ m.j ∧
  (0 < m.size → m.i + m.size ≤ ahi ∧ m.j + m.size ≤ bhi) ∧
  (m.size = 0 → m.i = alo ∧ m.j = blo)

/-- Invariant of the `j2len` dict entering iteration `i` of the outer loop:
every entry `(jk, v)` records a diagonal chain of length `v` ending at a
column `jk ≥ blo` and at a row below `i`. -/
def WFj2len (alo blo i : Nat) (m : List (Nat × Nat)) : Prop :=
  ∀ p ∈ m, blo ≤ p.1 ∧ p.2 + blo ≤ p.1 + 1 ∧ p.2 + alo ≤ i

/-- The running cursor on the `a` side after walking a block list. -/
def chainEndI : Nat → List SMatch → Nat
  | i, [] => i
  | _, m :: rest => chainEndI (m.i + m.size) rest

/-- The running cursor on the `b` side after walking a block list. -/
def chainEndJ : Nat → List SMatch → Nat
  | j, [] => j
  | _, m :: rest => chainEndJ (m.j + m.size) rest

/-- The length of the diagonal chain of `b2j`-present elements of `a` ending
at index `e` (for the self-comparison `SequenceMatcher(None, a, a)`): the
value the inner dynamic-programming loop stores at the diagonal key. -/
def diagChain (a : List Token) (b2 : Token → List Nat) : Nat → Nat
  | 0 => if 0 ∈ b2 (a.getD 0 []) then 1 else 0
  | e + 1 => if (e + 1) ∈ b2 (a.getD (e + 1) []) then diagChain a b2 e + 1 else 0

/-! ## Theorems -/

/-! ### Tokenizer infrastructure -/

theorem wp_tokenizeF_nil (f : Nat) : wp_tokenizeF f [] = [] := by
  cases f <;> rfl

theorem wp_tokenize_trainF_nil (f : Nat) : wp_tokenize_trainF f [] = [] := by
  cases f <;> rfl

theorem wp_tokenize_testF_nil (f : Nat) : wp_tokenize_testF f [] = [] := by
  cases f <;> rfl

theorem dropWhile_length_le {p : Char → Bool} (l : List Char) :
    (l.dropWhile p).length ≤ l.length :=
  (List.dropWhile_suffix _).length_le

/-- `wp_tokenizeF` does not depend on the fuel once the fuel dominates the
input length. -/
theorem wp_tokenizeF_mono :
    ∀ (f1 : Nat) (s : List Char) (f2 : Nat), s.length ≤ f1 → s.length ≤ f2 →
      wp_tokenizeF f1 s = wp_tokenizeF f2 s := by
  intro f1
  induction f1 with
  | zero =>
    intro s f2 h1 _
    have hs : s = [] := by cases s <;> simp_all
    subst hs
    rw [wp_tokenizeF_nil, wp_tokenizeF_nil]
  | succ f1 ih =>
    intro s f2 h1 h2
    cases s with
    | nil => rw [wp_tokenizeF_nil, wp_tokenizeF_nil]
    | cons c rest =>
      cases f2 with
      | zero => simp at h2
      | succ f2 =>
        have hrest1 : rest.length ≤ f1 := by simp at h1; omega
        have hrest2 : rest.length ≤ f2 := by simp at h2; omega
        have hdwlen : (rest.dropWhile Char.isAlpha).length ≤ rest.length :=
          dropWhile_length_le rest
        by_cases hca : c.isAlpha = true
        · cases hdw : rest.dropWhile Char.isAlpha with
          | nil => simp only [wp_tokenizeF, hca, if_true, hdw, wp_tokenizeF_nil]
          | cons q tl =>
            rw [hdw] at hdwlen
            cases tl with
            | nil =>
              simp only [wp_tokenizeF, hca, if_true, hdw]
              rw [ih [q] f2 (by simp at hdwlen ⊢; omega) (by simp at hdwlen ⊢; omega)]
            | cons d r3 =>
              simp only [List.length_cons] at hdwlen
              by_cases hap : q = apostropheChar ∧ d.isAlpha = true
              · simp only [wp_tokenizeF, hca, if_true, hdw, hap, and_self]
                have h3 : (r3.dropWhile Char.isAlpha).length ≤ r3.length :=
                  dropWhile_length_le r3
                rw [ih (r3.dropWhile Char.isAlpha) f2 (by omega) (by omega)]
              · simp only [wp_tokenizeF, hca, if_true, hdw, hap, if_false]
                rw [ih (q :: d :: r3) f2 (by simp; omega) (by simp; omega)]
        · by_cases hcd : c.isDigit = true
          · simp only [wp_tokenizeF, hca, hcd, if_true, if_false, Bool.false_eq_true]
            rw [ih (rest.dropWhile Char.isDigit) f2
              (le_trans (dropWhile_length_le rest) hrest1)
              (le_trans (dropWhile_length_le rest) hrest2)]
          · by_cases hcp : ¬ isWordChar c = true ∧ ¬ isPySpace c = true
            · simp only [wp_tokenizeF, hca, hcd, hcp, and_self, if_true, if_false, Bool.false_eq_true]
              rw [ih rest f2 hrest1 hrest2]
            · simp only [wp_tokenizeF, hca, hcd, hcp, if_false, Bool.false_eq_true]
              rw [ih rest f2 hrest1 hrest2]

/-- One-step unfolding of `wp_tokenize` on a non-empty string. -/
theorem wp_tokenize_cons (c : Char) (rest : List Char) :
    wp_tokenize (c :: rest) =
      if c.isAlpha then
        match rest.dropWhile Char.isAlpha with
        | q :: d :: r3 =>
          if q = apostropheChar ∧ d.isAlpha then
            ((c :: rest.takeWhile Char.isAlpha) ++ q :: d :: r3.takeWhile Char.isAlpha) ::
              wp_tokenize (r3.dropWhile Char.isAlpha)
          else
            (c :: rest.takeWhile Char.isAlpha) :: wp_tokenize (q :: d :: r3)
        | r1 => (c :: rest.takeWhile Char.isAlpha) :: wp_tokenize r1
      else if c.isDigit then
        (c :: rest.takeWhile Char.isDigit) :: wp_tokenize (rest.dropWhile Char.isDigit)
      else if ¬ isWordChar c ∧ ¬ isPySpace c then
        [c] :: wp_tokenize rest
      else
        wp_tokenize rest := by
  show wp_tokenizeF (rest.length + 1) (c :: rest) = _
  have hdwlen : (rest.dropWhile Char.isAlpha).length ≤ rest.length :=
    dropWhile_length_le rest
  conv_lhs => rw [wp_tokenizeF]
  by_cases hca : c.isAlpha = true
  · cases hdw : rest.dropWhile Char.isAlpha with
    | nil =>
      simp only [hca, if_true, hdw, wp_tokenizeF_nil, wp_tokenize, List.length_nil]
    | cons q tl =>
      rw [hdw] at hdwlen
      cases tl with
      | nil =>
        simp only [hca, if_true, hdw]
        rw [wp_tokenizeF_mono rest.length [q] [q].length (by simp at hdwlen ⊢; omega)
          le_rfl]
        rfl
      | cons d r3 =>
        simp only [List.length_cons] at hdwlen
        by_cases hap : q = apostropheChar ∧ d.isAlpha = true
        · simp only [hca, if_true, hdw, hap, and_self]
          have h3 : (r3.dropWhile Char.isAlpha).length ≤ r3.length :=
            dropWhile_length_le r3
          rw [wp_tokenizeF_mono rest.length (r3.dropWhile Char.isAlpha)
            (r3.dropWhile Char.isAlpha).length (by omega) le_rfl]
          rfl
        · simp only [hca, if_true, hdw, hap, if_false]
          rw [wp_tokenizeF_mono rest.length (q :: d :: r3) (q :: d :: r3).length
            (by simp; omega) le_rfl]
          rfl
  · by_cases hcd : c.isDigit = true
    · simp only [hca, hcd, if_true, if_false, Bool.false_eq_true]
      rw [wp_tokenizeF_mono rest.length (rest.dropWhile Char.isDigit)
        (rest.dropWhile Char.isDigit).length (dropWhile_length_le rest) le_rfl]
      rfl
    · by_cases hcp : ¬ isWordChar c = true ∧ ¬ isPySpace c = true
      · simp only [hca, hcd, hcp, and_self, if_true, if_false, Bool.false_eq_true]
        rfl
      · simp only [hca, hcd, hcp, if_false, Bool.false_eq_true]
        rfl

/-- The two offline tokenizers are pointwise equal at every fuel. -/
theorem wp_tokenize_trainF_eq_testF :
    ∀ (f : Nat) (s : List Char), wp_tokenize_trainF f s = wp_tokenize_testF f s := by
  intro f
  induction f with
  | zero => intro s; cases s <;> rfl
  | succ f ih =>
    intro s
    cases s with
    | nil => rfl
    | cons c rest =>
      simp only [wp_tokenize_trainF, wp_tokenize_testF]
      by_cases hcw : isWordChar c = true
      · simp only [hcw, if_true, ih]
      · by_cases hcs : ¬ isPySpace c = true
        · simp only [hcw, hcs, if_true, if_false, Bool.false_eq_true, ih]
        · simp only [hcw, hcs, if_false, Bool.false_eq_true, ih]

/-! ### C10: the repository's tokenizers -/

/-- C10 (amended): the offline training and test scripts share one
tokenization function — `wp_tokenize_train` and `wp_tokenize_test` compute
the same token sequence on every input — but the online server's tokenizer
is a different function (see `c10_counterexample`). -/
theorem c10_offline_tokenizers_agree (s : List Char) :
    wp_tokenize_train s = wp_tokenize_test s :=
  wp_tokenize_trainF_eq_testF s.length s

/-- C10 counterexample: on `"don't"` the server tokenizer produces one token
while the offline tokenizer produces three, so the repository does not
implement a single tokenization function. -/
theorem c10_counterexample :
    wp_tokenize "don\x27t".toList ≠ wp_tokenize_train "don\x27t".toList ∧
    wp_tokenize "don\x27t".toList = ["don\x27t".toList] ∧
    wp_tokenize_train "don\x27t".toList = ["don".toList, [apostropheChar], ["t".toList.head!]] := by
  refine ⟨by decide, by decide, by decide⟩

/-! ### C5: the plural rule of the fallback heuristic -/

/-- C5 counterexample: the heuristic classifies the replaced pair
`("cat", "CATS")` as `agreement/plural` even though none of the exact-string
(unfolded) comparisons of the claim hold on the raw texts — the code
lowercases (and strips) both sides before the plural comparison. -/
theorem c5_counterexample :
    predict_error_type_heuristic
        (Change.mk EditType.replaced (some "cat".toList) (some "CATS".toList) "" "") =
      "agreement/plural" ∧
    "CATS".toList ≠ "cat".toList ++ ['s'] ∧
    "CATS".toList ≠ "cat".toList ++ ['e', 's'] ∧
    ¬("cat".toList.getLast? = some 'y' ∧
        "cat".toList.dropLast ++ ['i', 'e', 's'] = "CATS".toList) := by
  refine ⟨by decide, by decide, by decide, by decide⟩

/-- C5 (amended): the heuristic strips and lowercases both texts before all
rules (not only the article rule); a `replaced` edit is classified
`agreement/plural` exactly when both folded texts are non-empty and the
folded corrected text equals the folded original with `"s"` or `"es"`
appended, or the folded original ends in `"y"` and the folded corrected
equals it minus `"y"` plus `"ies"`. -/
theorem c5_plural_rule_folded (f t : List Char) (et mf : String) :
    predict_error_type_heuristic (Change.mk EditType.replaced (some f) (some t) et mf) =
        "agreement/plural" ↔
      (pyLower (pyStrip f) ≠ [] ∧ pyLower (pyStrip t) ≠ [] ∧
        (pyLower (pyStrip f) ++ ['s'] = pyLower (pyStrip t) ∨
         pyLower (pyStrip f) ++ ['e', 's'] = pyLower (pyStrip t) ∨
         ((pyLower (pyStrip f)).getLast? = some 'y' ∧
           (pyLower (pyStrip f)).dropLast ++ ['i', 'e', 's'] = pyLower (pyStrip t)))) := by
  simp only [predict_error_type_heuristic, heuristicFold]
  rw [if_neg (by simp)]
  by_cases hc : pyLower (pyStrip f) ≠ [] ∧ pyLower (pyStrip t) ≠ [] ∧
      (pyLower (pyStrip f) ++ ['s'] = pyLower (pyStrip t) ∨
       pyLower (pyStrip f) ++ ['e', 's'] = pyLower (pyStrip t) ∨
       ((pyLower (pyStrip f)).getLast? = some 'y' ∧
         (pyLower (pyStrip f)).dropLast ++ ['i', 'e', 's'] = pyLower (pyStrip t)))
  · rw [if_pos (by exact ⟨by trivial, hc.1, hc.2.1, hc.2.2⟩)]
    simp [hc]
  · rw [if_neg (by intro h; exact hc ⟨h.2.1, h.2.2.1, h.2.2.2⟩)]
    rw [if_neg (by simp), if_neg (by simp)]
    simp only [iff_false_intro hc, iff_false]
    decide

/-- C5 witness: the amended rule applied at the concrete folded pair
`("Cat ", "cats")`. -/
theorem c5_plural_rule_folded_witness :
    predict_error_type_heuristic
        (Change.mk EditType.replaced (some "Cat ".toList) (some "cats".toList) "" "") =
      "agreement/plural" :=
  (c5_plural_rule_folded "Cat ".toList "cats".toList "" "").mpr (by decide)

/-! ### C3: the score contract of `correct_text` -/

/-- C3: every correction result satisfies `score = max(0, 10 - edit_count)`,
`has_errors = (edit_count > 0)`, `0 ≤ score ≤ 10` and
`score = 10 - min(edit_count, 10)`, where `edit_count = num_errors` is the
length of the produced changes list. -/
theorem c3_score_contract (mm : ModelManagerState)
    (student corrected prompt : List Char) :
    (correct_text mm student corrected prompt).num_errors =
        (correct_text mm student corrected prompt).changes.length ∧
    (correct_text mm student corrected prompt).score =
        max 0 (10 - ((correct_text mm student corrected prompt).num_errors : Int)) ∧
    (correct_text mm student corrected prompt).has_errors =
        decide (0 < (correct_text mm student corrected prompt).num_errors) ∧
    0 ≤ (correct_text mm student corrected prompt).score ∧
    (correct_text mm student corrected prompt).score ≤ 10 ∧
    (correct_text mm student corrected prompt).score =
        10 - ((min (correct_text mm student corrected prompt).num_errors 10 : Nat) : Int) := by
  refine ⟨rfl, rfl, rfl, ?_, ?_, ?_⟩
  · exact le_max_left 0 _
  · exact max_le (by norm_num) (by omega)
  · show max 0 (10 - ((identify_changes mm student corrected).length : Int)) =
      10 - ((min (identify_changes mm student corrected).length 10 : Nat) : Int)
    rcases le_or_lt (identify_changes mm student corrected).length 10 with h | h
    · rw [min_eq_left h, max_eq_right (by omega)]
    · rw [min_eq_right (le_of_lt h), max_eq_left (by omega)]
      norm_num

/-! ### C7: classifier failure handling in `_predict_error_type` -/

/-- C7: if no classifier is loaded (flag unset or object absent) the
heuristic's result is returned directly, and if the loaded classifier's
`predict` raises, the exception is caught and the heuristic's result is
returned — `_predict_error_type` is total and never propagates the
exception. -/
theorem c7_predict_error_type_fallback :
    (∀ (clf : Option Clf) (ch : Change),
      predict_error_type (ModelManagerState.mk false clf) ch =
        predict_error_type_heuristic ch) ∧
    (∀ (ld : Bool) (ch : Change),
      predict_error_type (ModelManagerState.mk ld none) ch =
        predict_error_type_heuristic ch) ∧
    (∀ (clf : Clf) (ch : Change) (e : String),
      clf (normalize_pair_for_clf ch.fromText ch.toText) = Except.error e →
        predict_error_type (ModelManagerState.mk true (some clf)) ch =
          predict_error_type_heuristic ch) := by
  refine ⟨?_, ?_, ?_⟩
  · intro clf ch; cases clf <;> rfl
  · intro ld ch; cases ld <;> rfl
  · intro clf ch e h
    simp only [predict_error_type, h]

/-- C7 witness: a classifier that always raises routes to the heuristic on a
concrete edit. -/
theorem c7_predict_error_type_fallback_witness :
    predict_error_type
        (ModelManagerState.mk true (some (fun _ => Except.error "predict failed")))
        (Change.mk EditType.deleted (some "very".toList) none "" "") =
      predict_error_type_heuristic
        (Change.mk EditType.deleted (some "very".toList) none "" "") :=
  c7_predict_error_type_fallback.2.2 (fun _ => Except.error "predict failed")
    (Change.mk EditType.deleted (some "very".toList) none "" "") "predict failed" rfl

/-! ### C9: the training-example builder -/

theorem lookup_mem_snd :
    ∀ (l : List (String × String)) (k v : String),
      l.lookup k = some v → v ∈ l.map Prod.snd := by
  intro l
  induction l with
  | nil => intro k v h; simp [List.lookup] at h
  | cons p rest ih =>
    intro k v h
    rcases p with ⟨a, b⟩
    simp only [List.lookup] at h
    split at h
    · simp only [Option.some.injEq] at h
      subst h
      exact List.mem_cons_self _ _
    · exact List.mem_cons_of_mem _ (ih k v h)

theorem fceToFriendly_mem_taxonomy (code : String) : fceToFriendly code ∈ taxonomy := by
  unfold fceToFriendly taxonomy
  cases h : FCE_TO_FRIENDLY.lookup code with
  | none => simp
  | some v => exact List.mem_append.mpr (Or.inl (lookup_mem_snd _ _ _ h))

/-- C9: every labelled example built from a corpus carries a category inside
the fixed taxonomy (a value of the fine-to-coarse table, or `"other"`), its
text has the shape `"INC: <incorrect> || COR: <correct>"` over the stripped
texts, no example comes from a triple whose two texts are both empty after
stripping, and no example comes from a triple in which either side tokenizes
to more than 40 tokens. -/
theorem c9_build_examples_contract (data : List FCEItem) (ex : List Char × String)
    (hex : ex ∈ build_error_type_examples data) :
    ex.2 ∈ taxonomy ∧
    ∃ inc cor : List Char,
      ex.1 = "INC: ".toList ++ inc ++ " || COR: ".toList ++ cor ∧
      ¬(inc = [] ∧ cor = []) ∧
      (wp_tokenize_train inc).length ≤ 40 ∧ (wp_tokenize_train cor).length ≤ 40 := by
  unfold build_error_type_examples at hex
  rw [List.mem_flatten] at hex
  obtain ⟨l, hl, hexl⟩ := hex
  rw [List.mem_map] at hl
  obtain ⟨item, _, rfl⟩ := hl
  rw [List.mem_filterMap] at hexl
  obtain ⟨corr, _, hc⟩ := hexl
  simp only [corrExample] at hc
  split_ifs at hc with h1 h2 h3 <;> try exact Option.noConfusion hc
  rw [Option.some.injEq] at hc
  subst hc
  push_neg at h1 h3
  refine ⟨fceToFriendly_mem_taxonomy _, pyStrip (corr.incorrect.getD "").toList,
    pyStrip (corr.correct.getD "").toList, rfl, ?_, ?_, ?_⟩
  · intro h
    exact h1 h.1 h.2
  · omega
  · omega

/-- C9 witness: the contract applied to a concrete one-triple corpus. -/
theorem c9_build_examples_contract_witness :
    (("INC: a cat || COR: two cats".toList, "agreement/plural") :
        List Char × String).2 ∈ taxonomy :=
  (c9_build_examples_contract
    [FCEItem.mk [FCECorrection.mk (some "AGN") (some " a cat ") (some "two cats")]]
    ("INC: a cat || COR: two cats".toList, "agreement/plural") (by decide)).1

/-! ### C6: the server tokenizer -/

theorem all_takeWhile (p : Char → Bool) :
    ∀ l : List Char, (l.takeWhile p).all p = true := by
  intro l
  induction l with
  | nil => rfl
  | cons c l ih =>
    rw [List.takeWhile_cons]
    by_cases h : p c = true
    · simp [h, ih]
    · simp [h]

theorem takeWhile_eq_self_of_all (p : Char → Bool) :
    ∀ l : List Char, l.all p = true → l.takeWhile p = l := by
  intro l
  induction l with
  | nil => intro _; rfl
  | cons c l ih =>
    intro h
    simp only [List.all_cons, Bool.and_eq_true] at h
    rw [List.takeWhile_cons, if_pos h.1, ih h.2]

theorem dropWhile_eq_nil_of_all (p : Char → Bool) :
    ∀ l : List Char, l.all p = true → l.dropWhile p = [] := by
  intro l
  induction l with
  | nil => intro _; rfl
  | cons c l ih =>
    intro h
    simp only [List.all_cons, Bool.and_eq_true] at h
    rw [List.dropWhile_cons, if_pos h.1, ih h.2]

theorem takeWhile_dropWhile_append (p : Char → Bool) :
    ∀ (L r : List Char), L.all p = true → (∀ x ∈ r.head?, p x = false) →
      (L ++ r).takeWhile p = L ∧ (L ++ r).dropWhile p = r := by
  intro L
  induction L with
  | nil =>
    intro r _ hr
    cases r with
    | nil => exact ⟨rfl, rfl⟩
    | cons x r' =>
      have hx := hr x rfl
      simp only [List.nil_append, List.takeWhile_cons, List.dropWhile_cons, hx]
      exact ⟨rfl, rfl⟩
  | cons c L ih =>
    intro r h hr
    simp only [List.all_cons, Bool.and_eq_true] at h
    have := ih r h.2 hr
    rw [List.cons_append, List.takeWhile_cons, List.dropWhile_cons, if_pos h.1, if_pos h.1,
      this.1, this.2]
    exact ⟨rfl, rfl⟩

theorem not_pyspace_of_isAlpha {c : Char} (h : c.isAlpha = true) : isPySpace c = false := by
  by_contra hs
  rw [Bool.not_eq_false] at hs
  simp only [isPySpace, Bool.or_eq_true, decide_eq_true_eq] at hs
  rcases hs with ((((rfl | rfl) | rfl) | rfl) | rfl) | rfl <;> exact absurd h (by decide)

theorem not_pyspace_of_isDigit {c : Char} (h : c.isDigit = true) : isPySpace c = false := by
  by_contra hs
  rw [Bool.not_eq_false] at hs
  simp only [isPySpace, Bool.or_eq_true, decide_eq_true_eq] at hs
  rcases hs with ((((rfl | rfl) | rfl) | rfl) | rfl) | rfl <;> exact absurd h (by decide)

theorem isWordChar_of_isAlpha {c : Char} (h : c.isAlpha = true) : isWordChar c = true := by
  simp [isWordChar, h]

theorem isWordChar_of_isDigit {c : Char} (h : c.isDigit = true) : isWordChar c = true := by
  simp [isWordChar, h]

theorem not_isAlpha_of_not_isWordChar {c : Char} (h : isWordChar c = false) :
    c.isAlpha = false := by
  by_contra ha
  rw [Bool.not_eq_false] at ha
  rw [isWordChar_of_isAlpha ha] at h
  exact Bool.noConfusion h

theorem not_isDigit_of_not_isWordChar {c : Char} (h : isWordChar c = false) :
    c.isDigit = false := by
  by_contra ha
  rw [Bool.not_eq_false] at ha
  rw [isWordChar_of_isDigit ha] at h
  exact Bool.noConfusion h

theorem not_isAlpha_of_pyspace {c : Char} (h : isPySpace c = true) : c.isAlpha = false := by
  by_contra ha
  rw [Bool.not_eq_false] at ha
  rw [not_pyspace_of_isAlpha ha] at h
  exact Bool.noConfusion h

theorem not_isDigit_of_pyspace {c : Char} (h : isPySpace c = true) : c.isDigit = false := by
  by_contra ha
  rw [Bool.not_eq_false] at ha
  rw [not_pyspace_of_isDigit ha] at h
  exact Bool.noConfusion h

theorem isGoodToken_letterRun (c : Char) (tl : List Char) (hca : c.isAlpha = true) :
    isGoodToken (c :: tl.takeWhile Char.isAlpha) = true := by
  have hall : (c :: tl.takeWhile Char.isAlpha).all Char.isAlpha = true := by
    simp [hca, all_takeWhile]
  unfold isGoodToken
  rw [takeWhile_eq_self_of_all _ _ hall, dropWhile_eq_nil_of_all _ _ hall]
  simp

theorem isGoodToken_apostropheRun (c d : Char) (tw m : List Char)
    (hca : c.isAlpha = true) (hd : d.isAlpha = true) :
    isGoodToken ((c :: tw.takeWhile Char.isAlpha) ++
      apostropheChar :: d :: m.takeWhile Char.isAlpha) = true := by
  have hall : (c :: tw.takeWhile Char.isAlpha).all Char.isAlpha = true := by
    simp [hca, all_takeWhile]
  have hsplit := takeWhile_dropWhile_append Char.isAlpha (c :: tw.takeWhile Char.isAlpha)
    (apostropheChar :: d :: m.takeWhile Char.isAlpha) hall
    (by intro x hx; cases hx; decide)
  unfold isGoodToken
  rw [hsplit.1, hsplit.2]
  simp [hd, all_takeWhile]

theorem isGoodToken_digitRun (c : Char) (tl : List Char) (hcd : c.isDigit = true) :
    isGoodToken (c :: tl.takeWhile Char.isDigit) = true := by
  unfold isGoodToken
  have hall : (c :: tl.takeWhile Char.isDigit).all Char.isDigit = true := by
    simp [hcd, all_takeWhile]
  rw [hall]
  simp

theorem isGoodToken_single (c : Char) (h1 : isWordChar c = false) (h2 : isPySpace c = false) :
    isGoodToken [c] = true := by
  unfold isGoodToken
  simp [h1, h2]

/-- Every token produced by the server tokenizer is well-formed
(fuel-indexed induction). -/
theorem wp_tokenize_wf_aux :
    ∀ (n : Nat) (s : List Char), s.length ≤ n →
      ∀ t ∈ wp_tokenize s, isGoodToken t = true := by
  intro n
  induction n with
  | zero =>
    intro s h t ht
    have hs : s = [] := by cases s <;> simp_all
    subst hs
    exact absurd ht (List.not_mem_nil t)
  | succ n ih =>
    intro s hlen t ht
    cases s with
    | nil => exact absurd ht (List.not_mem_nil t)
    | cons c rest =>
      have hlen' : rest.length ≤ n := by simp at hlen; omega
      have hdwlen : (rest.dropWhile Char.isAlpha).length ≤ rest.length :=
        dropWhile_length_le rest
      rw [wp_tokenize_cons] at ht
      by_cases hca : c.isAlpha = true
      · cases hdw : rest.dropWhile Char.isAlpha with
        | nil =>
          simp only [hca, if_true, hdw] at ht
          rcases List.mem_cons.mp ht with rfl | htl
          · exact isGoodToken_letterRun c rest hca
          · exact absurd htl (List.not_mem_nil t)
        | cons q tl =>
          rw [hdw] at hdwlen
          cases tl with
          | nil =>
            simp only [hca, if_true, hdw] at ht
            rcases List.mem_cons.mp ht with rfl | htl
            · exact isGoodToken_letterRun c rest hca
            · exact ih [q] (by simp at hdwlen ⊢; omega) t htl
          | cons d r3 =>
            simp only [List.length_cons] at hdwlen
            by_cases hap : q = apostropheChar ∧ d.isAlpha = true
            · simp only [hca, if_true, hdw, hap, and_self, if_true] at ht
              rcases List.mem_cons.mp ht with rfl | htl
              · exact isGoodToken_apostropheRun c d rest r3 hca hap.2
              · exact ih (r3.dropWhile Char.isAlpha)
                  (le_trans (dropWhile_length_le r3) (by omega)) t htl
            · simp only [hca, if_true, hdw, hap, if_false] at ht
              rcases List.mem_cons.mp ht with rfl | htl
              · exact isGoodToken_letterRun c rest hca
              · exact ih (q :: d :: r3) (by simp; omega) t htl
      · by_cases hcd : c.isDigit = true
        · simp only [hca, hcd, if_true, if_false, Bool.false_eq_true] at ht
          rcases List.mem_cons.mp ht with rfl | htl
          · exact isGoodToken_digitRun c rest hcd
          · exact ih (rest.dropWhile Char.isDigit)
              (le_trans (dropWhile_length_le rest) hlen') t htl
        · by_cases hcp : ¬ isWordChar c = true ∧ ¬ isPySpace c = true
          · simp only [hca, hcd, hcp, and_self, if_true, if_false, Bool.false_eq_true] at ht
            rcases List.mem_cons.mp ht with rfl | htl
            · exact isGoodToken_single c (by simpa using hcp.1) (by simpa using hcp.2)
            · exact ih rest hlen' t htl
          · simp only [hca, hcd, hcp, if_false, Bool.false_eq_true] at ht
            exact ih rest hlen' t ht

/-- Characters kept by the server tokenizer: everything except whitespace and
word characters that are neither letters nor digits (in the ASCII model,
the underscore). -/
def keepChar (c : Char) : Bool :=
  !(isPySpace c) && !(isWordChar c && !c.isAlpha && !c.isDigit)

theorem filter_cons_pos (p : Char → Bool) (a : Char) (l : List Char) (h : p a = true) :
    (a :: l).filter p = a :: l.filter p := by
  simp [List.filter_cons, h]

theorem filter_cons_neg (p : Char → Bool) (a : Char) (l : List Char) (h : p a = false) :
    (a :: l).filter p = l.filter p := by
  simp [List.filter_cons, h]

theorem keepChar_of_isAlpha {c : Char} (h : c.isAlpha = true) : keepChar c = true := by
  simp [keepChar, not_pyspace_of_isAlpha h, h]

theorem keepChar_of_isDigit {c : Char} (h : c.isDigit = true) : keepChar c = true := by
  simp [keepChar, not_pyspace_of_isDigit h, h]

theorem filter_keep_of_all_alpha :
    ∀ l : List Char, l.all Char.isAlpha = true → l.filter keepChar = l := by
  intro l hl
  rw [List.filter_eq_self]
  intro a ha
  rw [List.all_eq_true] at hl
  exact keepChar_of_isAlpha (hl a ha)

theorem filter_keep_of_all_digit :
    ∀ l : List Char, l.all Char.isDigit = true → l.filter keepChar = l := by
  intro l hl
  rw [List.filter_eq_self]
  intro a ha
  rw [List.all_eq_true] at hl
  exact keepChar_of_isDigit (hl a ha)

/-- The concatenation of the server tokens is the input minus whitespace and
minus word characters matched by no token rule (fuel-indexed induction). -/
theorem wp_tokenize_flatten_aux :
    ∀ (n : Nat) (s : List Char), s.length ≤ n →
      (wp_tokenize s).flatten = s.filter keepChar := by
  intro n
  induction n with
  | zero =>
    intro s h
    have hs : s = [] := by cases s <;> simp_all
    subst hs
    rfl
  | succ n ih =>
    intro s hlen
    cases s with
    | nil => rfl
    | cons c rest =>
      have hlen' : rest.length ≤ n := by simp at hlen; omega
      have hdwlen : (rest.dropWhile Char.isAlpha).length ≤ rest.length :=
        dropWhile_length_le rest
      have hfilter : rest.filter keepChar =
          rest.takeWhile Char.isAlpha ++ (rest.dropWhile Char.isAlpha).filter keepChar := by
        conv_lhs => rw [← List.takeWhile_append_dropWhile Char.isAlpha rest]
        rw [List.filter_append, filter_keep_of_all_alpha _ (all_takeWhile _ rest)]
      rw [wp_tokenize_cons]
      by_cases hca : c.isAlpha = true
      · have hkeepc : keepChar c = true := keepChar_of_isAlpha hca
        cases hdw : rest.dropWhile Char.isAlpha with
        | nil =>
          simp only [hca, if_true, hdw]
          rw [hdw] at hfilter
          rw [List.flatten_cons, filter_cons_pos _ _ _ hkeepc, hfilter]
          simp [show wp_tokenize ([] : List Char) = [] from rfl]
        | cons q tl =>
          rw [hdw] at hdwlen hfilter
          cases tl with
          | nil =>
            simp only [hca, if_true, hdw]
            rw [List.flatten_cons, filter_cons_pos _ _ _ hkeepc, hfilter,
              ih [q] (by simp at hdwlen ⊢; omega)]
            simp
          | cons d r3 =>
            simp only [List.length_cons] at hdwlen
            have hfilter3 : r3.filter keepChar = r3.takeWhile Char.isAlpha ++
                (r3.dropWhile Char.isAlpha).filter keepChar := by
              conv_lhs => rw [← List.takeWhile_append_dropWhile Char.isAlpha r3]
              rw [List.filter_append, filter_keep_of_all_alpha _ (all_takeWhile _ r3)]
            by_cases hap : q = apostropheChar ∧ d.isAlpha = true
            · simp only [hca, if_true, hdw, hap, and_self, if_true]
              have hkeepq : keepChar apostropheChar = true := by decide
              have hkeepd : keepChar d = true := keepChar_of_isAlpha hap.2
              rw [List.flatten_cons, filter_cons_pos _ _ _ hkeepc, hfilter, hap.1,
                filter_cons_pos _ _ _ hkeepq, filter_cons_pos _ _ _ hkeepd, hfilter3,
                ih (r3.dropWhile Char.isAlpha)
                  (le_trans (dropWhile_length_le r3) (by omega))]
              simp
            · simp only [hca, if_true, hdw, hap, if_false]
              rw [List.flatten_cons, filter_cons_pos _ _ _ hkeepc, hfilter,
                ih (q :: d :: r3) (by simp; omega)]
              simp
      · by_cases hcd : c.isDigit = true
        · have hfilterd : rest.filter keepChar = rest.takeWhile Char.isDigit ++
              (rest.dropWhile Char.isDigit).filter keepChar := by
            conv_lhs => rw [← List.takeWhile_append_dropWhile Char.isDigit rest]
            rw [List.filter_append, filter_keep_of_all_digit _ (all_takeWhile _ rest)]
          simp only [hca, hcd, if_true, if_false, Bool.false_eq_true]
          rw [List.flatten_cons, filter_cons_pos _ _ _ (keepChar_of_isDigit hcd), hfilterd,
            ih (rest.dropWhile Char.isDigit) (le_trans (dropWhile_length_le rest) hlen')]
          simp
        · by_cases hcp : ¬ isWordChar c = true ∧ ¬ isPySpace c = true
          · simp only [hca, hcd, hcp, and_self, if_true, if_false, Bool.false_eq_true,
              not_false_eq_true]
            have hkeepc : keepChar c = true := by
              have h1 : isWordChar c = false := by simpa using hcp.1
              have h2 : isPySpace c = false := by simpa using hcp.2
              simp [keepChar, h1, h2]
            rw [List.flatten_cons, filter_cons_pos _ _ _ hkeepc, ih rest hlen']
            rfl
          · simp only [hca, hcd, hcp, if_false, Bool.false_eq_true]
            have hdrop : keepChar c = false := by
              rcases Decidable.not_and_iff_or_not.mp hcp with h | h
              · have hw : isWordChar c = true := by simpa using h
                simp [keepChar, hw, hca, hcd]
              · have hs : isPySpace c = true := by simpa using h
                simp [keepChar, hs]
            rw [filter_cons_neg _ _ _ hdrop, ih rest hlen']

theorem not_isAlpha_of_isDigit {c : Char} (h : c.isDigit = true) : c.isAlpha = false := by
  simp only [Char.isDigit, Char.isAlpha, Char.isUpper, Char.isLower, Bool.and_eq_true,
    Bool.or_eq_true, Bool.or_eq_false_iff, Bool.and_eq_false_iff,
    decide_eq_true_eq, decide_eq_false_iff_not, not_le, ge_iff_le,
    UInt32.le_def, UInt32.lt_def, BitVec.le_def, BitVec.lt_def,
    show (UInt32.toBitVec 48).toNat = 48 from by decide,
    show (UInt32.toBitVec 57).toNat = 57 from by decide,
    show (UInt32.toBitVec 65).toNat = 65 from by decide,
    show (UInt32.toBitVec 90).toNat = 90 from by decide,
    show (UInt32.toBitVec 97).toNat = 97 from by decide,
    show (UInt32.toBitVec 122).toNat = 122 from by decide] at h ⊢
  omega

/-- Maximal letter runs: a non-empty all-letter prefix whose continuation
starts with no letter and with no apostrophe-letter group becomes exactly one
token, and tokenization continues on the continuation. -/
theorem wp_tokenize_letter_run (L r : List Char) (hne : L ≠ [])
    (hall : L.all Char.isAlpha = true)
    (hr : ∀ x ∈ r.head?, x.isAlpha = false)
    (hr2 : ∀ y ∈ r.tail.head?, r.head? = some apostropheChar → y.isAlpha = false) :
    wp_tokenize (L ++ r) = L :: wp_tokenize r := by
  cases L with
  | nil => exact absurd rfl hne
  | cons c Lt =>
    simp only [List.all_cons, Bool.and_eq_true] at hall
    have hsp := takeWhile_dropWhile_append Char.isAlpha Lt r hall.2 hr
    rw [List.cons_append, wp_tokenize_cons, if_pos hall.1]
    cases r with
    | nil =>
      simp only [hsp.1, hsp.2]
    | cons x rt =>
      cases rt with
      | nil => simp only [hsp.1, hsp.2]
      | cons y rtt =>
        simp only [hsp.1, hsp.2]
        rw [if_neg]
        intro hcon
        rcases hcon with ⟨hx, hy⟩
        by_cases hxa : x = apostropheChar
        · have := hr2 y rfl (by rw [hxa]; rfl)
          rw [this] at hy
          exact Bool.noConfusion hy
        · exact hxa hx

/-- Maximal digit runs: a non-empty all-digit prefix whose continuation
starts with no digit becomes exactly one token. -/
theorem wp_tokenize_digit_run (D r : List Char) (hne : D ≠ [])
    (hall : D.all Char.isDigit = true)
    (hr : ∀ x ∈ r.head?, x.isDigit = false) :
    wp_tokenize (D ++ r) = D :: wp_tokenize r := by
  cases D with
  | nil => exact absurd rfl hne
  | cons c Dt =>
    simp only [List.all_cons, Bool.and_eq_true] at hall
    have hsp := takeWhile_dropWhile_append Char.isDigit Dt r hall.2 hr
    rw [List.cons_append, wp_tokenize_cons, if_neg, if_pos hall.1]
    · simp only [hsp.1, hsp.2]
    · rw [not_isAlpha_of_isDigit hall.1]
      exact Bool.false_ne_true

/-- Contractions: letters, a single apostrophe-letter group and a non-letter
continuation become exactly one token. -/
theorem wp_tokenize_apostrophe_run (L M r : List Char) (hneL : L ≠ []) (hneM : M ≠ [])
    (hallL : L.all Char.isAlpha = true) (hallM : M.all Char.isAlpha = true)
    (hr : ∀ x ∈ r.head?, x.isAlpha = false) :
    wp_tokenize (L ++ apostropheChar :: M ++ r) =
      (L ++ apostropheChar :: M) :: wp_tokenize r := by
  cases L with
  | nil => exact absurd rfl hneL
  | cons c Lt =>
    cases M with
    | nil => exact absurd rfl hneM
    | cons d Mt =>
      simp only [List.all_cons, Bool.and_eq_true] at hallL hallM
      have hspL := takeWhile_dropWhile_append Char.isAlpha Lt
        (apostropheChar :: d :: (Mt ++ r)) hallL.2 (by intro x hx; cases hx; decide)
      have hspM := takeWhile_dropWhile_append Char.isAlpha Mt r hallM.2 hr
      simp only [List.cons_append, List.append_assoc]
      rw [wp_tokenize_cons, if_pos hallL.1]
      simp only [hspL.1, hspL.2]
      rw [if_pos ⟨by trivial, hallM.1⟩]
      simp only [hspM.1, hspM.2]
      simp

/-- Whitespace is skipped and produces no token. -/
theorem wp_tokenize_space (c : Char) (s : List Char) (h : isPySpace c = true) :
    wp_tokenize (c :: s) = wp_tokenize s := by
  rw [wp_tokenize_cons, if_neg, if_neg, if_neg]
  · intro hcon
    rw [h] at hcon
    exact absurd rfl hcon.2
  · rw [not_isDigit_of_pyspace h]
    exact Bool.false_ne_true
  · rw [not_isAlpha_of_pyspace h]
    exact Bool.false_ne_true

/-- A character that is neither a word character nor whitespace is its own
one-character token. -/
theorem wp_tokenize_punct (c : Char) (s : List Char)
    (h1 : isWordChar c = false) (h2 : isPySpace c = false) :
    wp_tokenize (c :: s) = [c] :: wp_tokenize s := by
  rw [wp_tokenize_cons, if_neg, if_neg, if_pos]
  · constructor
    · rw [h1]
      exact Bool.false_ne_true
    · rw [h2]
      exact Bool.false_ne_true
  · rw [not_isDigit_of_not_isWordChar h1]
    exact Bool.false_ne_true
  · rw [not_isAlpha_of_not_isWordChar h1]
    exact Bool.false_ne_true

/-- C6 (amended): the server tokenizer never fails and is characterised by:
the empty string yields the empty sequence; every emitted token is a maximal
letter run with an optional single embedded apostrophe-letter group, a
maximal digit run, or a single character that is neither a word character
nor whitespace; concatenating the tokens returns the input minus whitespace
and minus word characters matched by no rule (in the ASCII model, the
underscore, which — contrary to the original claim — yields no token);
whitespace yields no token, and the three run rules consume maximal runs. -/
theorem c6_server_tokenizer_contract :
    wp_tokenize [] = [] ∧
    (∀ (s : List Char), ∀ t ∈ wp_tokenize s, isGoodToken t = true) ∧
    (∀ s : List Char, (wp_tokenize s).flatten = s.filter keepChar) ∧
    (∀ (c : Char) (s : List Char), isPySpace c = true →
      wp_tokenize (c :: s) = wp_tokenize s) ∧
    (∀ (c : Char) (s : List Char), isWordChar c = false → isPySpace c = false →
      wp_tokenize (c :: s) = [c] :: wp_tokenize s) ∧
    (∀ L r : List Char, L ≠ [] → L.all Char.isAlpha = true →
      (∀ x ∈ r.head?, x.isAlpha = false) →
      (∀ y ∈ r.tail.head?, r.head? = some apostropheChar → y.isAlpha = false) →
      wp_tokenize (L ++ r) = L :: wp_tokenize r) ∧
    (∀ D r : List Char, D ≠ [] → D.all Char.isDigit = true →
      (∀ x ∈ r.head?, x.isDigit = false) →
      wp_tokenize (D ++ r) = D :: wp_tokenize r) ∧
    (∀ L M r : List Char, L ≠ [] → M ≠ [] →
      L.all Char.isAlpha = true → M.all Char.isAlpha = true →
      (∀ x ∈ r.head?, x.isAlpha = false) →
      wp_tokenize (L ++ apostropheChar :: M ++ r) =
        (L ++ apostropheChar :: M) :: wp_tokenize r) := by
  refine ⟨rfl, ?_, ?_, wp_tokenize_space, wp_tokenize_punct, wp_tokenize_letter_run,
    wp_tokenize_digit_run, wp_tokenize_apostrophe_run⟩
  · intro s t ht
    exact wp_tokenize_wf_aux s.length s le_rfl t ht
  · intro s
    exact wp_tokenize_flatten_aux s.length s le_rfl

/-- C6 witness: the token-shape conjunct applied to a concrete input. -/
theorem c6_server_tokenizer_contract_witness :
    isGoodToken "don\x27t".toList = true :=
  c6_server_tokenizer_contract.2.1 "don\x27t saw a.".toList "don\x27t".toList (by decide)

/-- C6 counterexample: the underscore is a non-whitespace character that is
neither a letter nor a digit, yet the server tokenizer emits no token for it
(it is matched by none of the regex alternatives because it belongs to the
word class), contradicting the claim that every other non-whitespace
character becomes its own one-character token. -/
theorem c6_counterexample :
    wp_tokenize ['_'] = [] ∧ isPySpace '_' = false ∧
    ('_' : Char).isAlpha = false ∧ ('_' : Char).isDigit = false := by
  refine ⟨rfl, by decide, by decide, by decide⟩

/-! ### Soundness of `findLongestMatch` and `getMatchingBlocks` -/

theorem alistGetD_cases : ∀ (m : List (Nat × Nat)) (k d : Nat),
    alistGetD m k d = d ∨ (k, alistGetD m k d) ∈ m := by
  intro m
  induction m with
  | nil => intro k d; exact Or.inl rfl
  | cons p rest ih =>
    intro k d
    rcases p with ⟨k', v⟩
    simp only [alistGetD]
    by_cases hk : k' = k
    · subst hk
      simp
    · rw [if_neg hk]
      rcases ih k d with h | h
      · exact Or.inl h
      · exact Or.inr (List.mem_cons_of_mem _ h)

theorem alistPut_mem : ∀ (m : List (Nat × Nat)) (k v : Nat) (p : Nat × Nat),
    p ∈ alistPut m k v → p = (k, v) ∨ p ∈ m := by
  intro m
  induction m with
  | nil =>
    intro k v p hp
    simp only [alistPut, List.mem_singleton] at hp
    exact Or.inl hp
  | cons q rest ih =>
    intro k v p hp
    rcases q with ⟨k', v'⟩
    simp only [alistPut] at hp
    by_cases hk : k' = k
    · rw [if_pos hk] at hp
      rcases List.mem_cons.mp hp with rfl | hp
      · exact Or.inl rfl
      · exact Or.inr (List.mem_cons_of_mem _ hp)
    · rw [if_neg hk] at hp
      rcases List.mem_cons.mp hp with rfl | hp
      · exact Or.inr (List.mem_cons_self _ _)
      · rcases ih k v p hp with h | h
        · exact Or.inl h
        · exact Or.inr (List.mem_cons_of_mem _ h)

@[simp] theorem SMatch_mk_i (x y z : Nat) : (SMatch.mk x y z).i = x := rfl

@[simp] theorem SMatch_mk_j (x y z : Nat) : (SMatch.mk x y z).j = y := rfl

@[simp] theorem SMatch_mk_size (x y z : Nat) : (SMatch.mk x y z).size = z := rfl

/-- The inner loop preserves the `j2len` invariant on the accumulator and the
best-match range invariant. -/
theorem jloop_sound (j2len : List (Nat × Nat)) (alo blo bhi i ahi : Nat)
    (hialo : alo ≤ i) (hia : i < ahi) (hj : WFj2len alo blo i j2len) :
    ∀ (js : List Nat) (new : List (Nat × Nat)) (best : SMatch),
      WFj2len alo blo (i + 1) new → WFbest alo blo ahi bhi best →
      WFj2len alo blo (i + 1) (jloop j2len blo bhi i js new best).1 ∧
      WFbest alo blo ahi bhi (jloop j2len blo bhi i js new best).2 := by
  intro js
  induction js with
  | nil => intro new best hnew hbest; exact ⟨hnew, hbest⟩
  | cons j js ih =>
    intro new best hnew hbest
    simp only [jloop]
    by_cases hjlo : j < blo
    · rw [if_pos hjlo]
      exact ih new best hnew hbest
    · rw [if_neg hjlo]
      by_cases hjhi : bhi ≤ j
      · rw [if_pos hjhi]
        exact ⟨hnew, hbest⟩
      · rw [if_neg hjhi]
        push_neg at hjlo hjhi
        have hprev : (if j = 0 then 0 else alistGetD j2len (j - 1) 0) + blo ≤ j ∧
            (if j = 0 then 0 else alistGetD j2len (j - 1) 0) + alo ≤ i := by
          by_cases hj0 : j = 0
          · subst hj0
            simp only [if_true]
            exact ⟨by omega, by omega⟩
          · rw [if_neg hj0]
            rcases alistGetD_cases j2len (j - 1) 0 with h | h
            · rw [h]
              exact ⟨by omega, by omega⟩
            · have := hj _ h
              simp only at this
              omega
        apply ih
        · intro p hp
          rcases alistPut_mem _ _ _ _ hp with rfl | hp
          · exact ⟨by omega, by omega, by omega⟩
          · exact hnew p hp
        · by_cases hupd :
              best.size < (if j = 0 then 0 else alistGetD j2len (j - 1) 0) + 1
          · rw [if_pos hupd]
            refine ⟨?_, ?_, ?_, ?_⟩ <;>
              simp only [SMatch_mk_i, SMatch_mk_j, SMatch_mk_size]
            · omega
            · omega
            · intro _
              constructor <;> omega
            · intro h0
              omega
          · rw [if_neg hupd]
            exact hbest

/-- The outer loop preserves the best-match range invariant. -/
theorem iloopF_sound (a : List Token) (b2 : Token → List Nat) (blo bhi : Nat) :
    ∀ (fuel i ahi : Nat) (j2len : List (Nat × Nat)) (best : SMatch) (alo : Nat),
      alo ≤ i → WFj2len alo blo i j2len → WFbest alo blo ahi bhi best →
      WFbest alo blo ahi bhi (iloopF a b2 blo bhi fuel i ahi j2len best) := by
  intro fuel
  induction fuel with
  | zero => intro i ahi j2len best alo _ _ hbest; exact hbest
  | succ fuel ih =>
    intro i ahi j2len best alo hialo hj hbest
    simp only [iloopF]
    by_cases hia : i < ahi
    · rw [if_pos hia]
      have hstep := jloop_sound j2len alo blo bhi i ahi hialo hia hj
        (b2 (a.getD i [])) [] best (by intro p hp; exact absurd hp (List.not_mem_nil p))
        hbest
      exact ih (i + 1) ahi _ _ alo (by omega) hstep.1 hstep.2
    · rw [if_neg hia]
      exact hbest

theorem extendLeftF_sound (a b : List Token) (alo blo ahi bhi : Nat) :
    ∀ (fuel : Nat) (m : SMatch), WFbest alo blo ahi bhi m →
      WFbest alo blo ahi bhi (extendLeftF a b alo blo fuel m) := by
  intro fuel
  induction fuel with
  | zero => intro m hm; exact hm
  | succ fuel ih =>
    intro m hm
    simp only [extendLeftF]
    by_cases hg : alo < m.i ∧ blo < m.j ∧ a.getD (m.i - 1) [] = b.getD (m.j - 1) []
    · rw [if_pos hg]
      apply ih
      have hpos : 0 < m.size := by
        rcases Nat.eq_zero_or_pos m.size with h0 | h
        · have := hm.2.2.2 h0
          omega
        · exact h
      have hbound := hm.2.2.1 hpos
      refine ⟨?_, ?_, ?_, ?_⟩ <;>
        simp only [SMatch_mk_i, SMatch_mk_j, SMatch_mk_size]
      · omega
      · omega
      · intro _
        constructor <;> omega
      · intro h0
        omega
    · rw [if_neg hg]
      exact hm

theorem extendRightF_sound (a b : List Token) (alo blo ahi bhi : Nat) :
    ∀ (fuel : Nat) (m : SMatch), WFbest alo blo ahi bhi m →
      WFbest alo blo ahi bhi (extendRightF a b ahi bhi fuel m) := by
  intro fuel
  induction fuel with
  | zero => intro m hm; exact hm
  | succ fuel ih =>
    intro m hm
    simp only [extendRightF]
    by_cases hg : m.i + m.size < ahi ∧ m.j + m.size < bhi ∧
        a.getD (m.i + m.size) [] = b.getD (m.j + m.size) []
    · rw [if_pos hg]
      apply ih
      refine ⟨?_, ?_, ?_, ?_⟩ <;>
        simp only [SMatch_mk_i, SMatch_mk_j, SMatch_mk_size]
      · exact hm.1
      · exact hm.2.1
      · intro _
        have := hm.2.2.1
        constructor <;> omega
      · intro h0
        omega
    · rw [if_neg hg]
      exact hm

/-- Range soundness of `find_longest_match`. -/
theorem findLongestMatch_sound (a b : List Token) (b2 : Token → List Nat)
    (alo ahi blo bhi : Nat) :
    WFbest alo blo ahi bhi (findLongestMatch a b b2 alo ahi blo bhi) := by
  unfold findLongestMatch extendLeft extendRight
  apply extendRightF_sound
  apply extendLeftF_sound
  apply iloopF_sound a b2 blo bhi (ahi - alo) alo ahi [] (SMatch.mk alo blo 0) alo le_rfl
  · intro p hp
    exact absurd hp (List.not_mem_nil p)
  · exact ⟨le_rfl, le_rfl, by intro h; simp at h, fun _ => ⟨rfl, rfl⟩⟩

theorem BChain_mono : ∀ (bs : List SMatch) (x y x' y' : Nat),
    x' ≤ x → y' ≤ y → BChain x y bs → BChain x' y' bs := by
  intro bs
  cases bs with
  | nil => intro x y x' y' _ _ _; trivial
  | cons m rest =>
    intro x y x' y' hx hy h
    exact ⟨le_trans hx h.1, le_trans hy h.2.1, h.2.2⟩

theorem BChain_append : ∀ (l1 l2 : List SMatch) (x y u v : Nat),
    BChain x y l1 → (∀ m ∈ l1, m.i + m.size ≤ u ∧ m.j + m.size ≤ v) →
    x ≤ u → y ≤ v → BChain u v l2 → BChain x y (l1 ++ l2) := by
  intro l1
  induction l1 with
  | nil =>
    intro l2 x y u v _ _ hx hy h2
    exact BChain_mono l2 u v x y hx hy h2
  | cons m rest ih =>
    intro l2 x y u v h1 hb hx hy h2
    refine ⟨h1.1, h1.2.1, ?_⟩
    exact ih l2 _ _ u v h1.2.2 (fun m' hm' => hb m' (List.mem_cons_of_mem _ hm'))
      (hb m (List.mem_cons_self _ _)).1 (hb m (List.mem_cons_self _ _)).2 h2

/-- The recursive block collection is cursor-monotone and each block is
non-empty and ends inside its range. -/
theorem matchingBlocksAuxF_chain (a b : List Token) (b2 : Token → List Nat) :
    ∀ (fuel alo ahi blo bhi : Nat),
      BChain alo blo (matchingBlocksAuxF a b b2 fuel alo ahi blo bhi) ∧
      (∀ m ∈ matchingBlocksAuxF a b b2 fuel alo ahi blo bhi,
        0 < m.size ∧ m.i + m.size ≤ ahi ∧ m.j + m.size ≤ bhi) := by
  intro fuel
  induction fuel with
  | zero =>
    intro alo ahi blo bhi
    exact ⟨trivial, fun m hm => absurd hm (List.not_mem_nil m)⟩
  | succ fuel ih =>
    intro alo ahi blo bhi
    simp only [matchingBlocksAuxF]
    rcases hfm : findLongestMatch a b b2 alo ahi blo bhi with ⟨mi, mj, msz⟩
    by_cases hg : 0 < msz ∧ alo ≤ mi ∧ mi + msz ≤ ahi ∧ blo ≤ mj ∧ mj + msz ≤ bhi
    · rw [if_pos hg]
      have ihl := ih alo mi blo mj
      have ihr := ih (mi + msz) ahi (mj + msz) bhi
      constructor
      · apply BChain_append _ _ alo blo mi mj ihl.1
        · intro m hm
          exact ⟨(ihl.2 m hm).2.1, (ihl.2 m hm).2.2⟩
        · exact hg.2.1
        · exact hg.2.2.2.1
        · exact ⟨le_rfl, le_rfl, ihr.1⟩
      · intro m hm
        rcases List.mem_append.mp hm with hm | hm
        · have := ihl.2 m hm
          refine ⟨this.1, by omega, by omega⟩
        · rcases List.mem_cons.mp hm with rfl | hm
          · exact ⟨hg.1, hg.2.2.1, hg.2.2.2.2⟩
          · have := ihr.2 m hm
            exact ⟨this.1, this.2.1, this.2.2⟩
    · rw [if_neg hg]
      exact ⟨trivial, fun m hm => absurd hm (List.not_mem_nil m)⟩

/-- The adjacency-merging loop preserves cursor monotonicity and end bounds. -/
theorem nonAdjacentAux_chain (A B : Nat) :
    ∀ (bs : List SMatch) (i1 j1 k1 : Nat),
      BChain (i1 + k1) (j1 + k1) bs →
      (∀ m ∈ bs, m.i + m.size ≤ A ∧ m.j + m.size ≤ B) →
      i1 + k1 ≤ A → j1 + k1 ≤ B →
      BChain i1 j1 (nonAdjacentAux i1 j1 k1 bs) ∧
      (∀ m ∈ nonAdjacentAux i1 j1 k1 bs, m.i + m.size ≤ A ∧ m.j + m.size ≤ B) := by
  intro bs
  induction bs with
  | nil =>
    intro i1 j1 k1 _ _ hA hB
    simp only [nonAdjacentAux]
    by_cases hk : k1 ≠ 0
    · rw [if_pos hk]
      refine ⟨⟨le_rfl, le_rfl, trivial⟩, ?_⟩
      intro m hm
      rcases List.mem_singleton.mp hm with rfl
      exact ⟨hA, hB⟩
    · rw [if_neg hk]
      exact ⟨trivial, fun m hm => absurd hm (List.not_mem_nil m)⟩
  | cons m rest ih =>
    intro i1 j1 k1 hch hb hA hB
    simp only [nonAdjacentAux]
    by_cases hadj : i1 + k1 = m.i ∧ j1 + k1 = m.j
    · rw [if_pos hadj]
      have e1 : i1 + (k1 + m.size) = m.i + m.size := by rw [← Nat.add_assoc, hadj.1]
      have e2 : j1 + (k1 + m.size) = m.j + m.size := by rw [← Nat.add_assoc, hadj.2]
      have := ih i1 j1 (k1 + m.size)
        (by rw [e1, e2]; exact hch.2.2)
        (fun m' hm' => hb m' (List.mem_cons_of_mem _ hm'))
        (by have := (hb m (List.mem_cons_self _ _)).1; omega)
        (by have := (hb m (List.mem_cons_self _ _)).2; omega)
      exact this
    · rw [if_neg hadj]
      have ihr := ih m.i m.j m.size hch.2.2
        (fun m' hm' => hb m' (List.mem_cons_of_mem _ hm'))
        (hb m (List.mem_cons_self _ _)).1 (hb m (List.mem_cons_self _ _)).2
      constructor
      · by_cases hk : k1 ≠ 0
        · rw [if_pos hk]
          refine ⟨le_rfl, le_rfl, ?_⟩
          exact BChain_mono _ _ _ _ _ hch.1 hch.2.1 ihr.1
        · rw [if_neg hk]
          push_neg at hk
          subst hk
          simp only [List.nil_append]
          have hc1 := hch.1
          have hc2 := hch.2.1
          exact BChain_mono _ _ _ _ _ (by omega) (by omega) ihr.1
      · intro m' hm'
        by_cases hk : k1 ≠ 0
        · rw [if_pos hk] at hm'
          rcases List.mem_append.mp hm' with hm' | hm'
          · rcases List.mem_singleton.mp hm' with rfl
            exact ⟨hA, hB⟩
          · exact ihr.2 m' hm'
        · rw [if_neg hk] at hm'
          simp only [List.nil_append] at hm'
          exact ihr.2 m' hm'

theorem chainEndI_append : ∀ (l1 l2 : List SMatch) (i : Nat),
    chainEndI i (l1 ++ l2) = chainEndI (chainEndI i l1) l2 := by
  intro l1
  induction l1 with
  | nil => intro l2 i; rfl
  | cons m rest ih =>
    intro l2 i
    simp only [List.cons_append, chainEndI]
    exact ih l2 _

theorem chainEndJ_append : ∀ (l1 l2 : List SMatch) (j : Nat),
    chainEndJ j (l1 ++ l2) = chainEndJ (chainEndJ j l1) l2 := by
  intro l1
  induction l1 with
  | nil => intro l2 j; rfl
  | cons m rest ih =>
    intro l2 j
    simp only [List.cons_append, chainEndJ]
    exact ih l2 _

@[simp] theorem Opcode_mk_i1 (t : OpTag) (a b c d : Nat) :
    (Opcode.mk t a b c d).i1 = a := rfl

@[simp] theorem Opcode_mk_i2 (t : OpTag) (a b c d : Nat) :
    (Opcode.mk t a b c d).i2 = b := rfl

@[simp] theorem Opcode_mk_j1 (t : OpTag) (a b c d : Nat) :
    (Opcode.mk t a b c d).j1 = c := rfl

@[simp] theorem Opcode_mk_j2 (t : OpTag) (a b c d : Nat) :
    (Opcode.mk t a b c d).j2 = d := rfl

/-- The opcode loop tiles the ranges exactly from the starting cursor to the
final cursor of the block list. -/
theorem opcodesLoop_tile : ∀ (bs : List SMatch) (i j : Nat), BChain i j bs →
    opcodesTile i j (chainEndI i bs) (chainEndJ j bs) (opcodesLoop i j bs) := by
  intro bs
  induction bs with
  | nil => intro i j _; exact ⟨rfl, rfl⟩
  | cons m rest ih =>
    intro i j hch
    simp only [opcodesLoop, chainEndI, chainEndJ]
    have hc1 := hch.1
    have hc2 := hch.2.1
    have htail := ih (m.i + m.size) (m.j + m.size) hch.2.2
    by_cases h1 : i < m.i ∧ j < m.j
    · rw [if_pos h1]
      by_cases hsz : m.size ≠ 0
      · rw [if_pos hsz]
        exact ⟨rfl, rfl, le_of_lt h1.1, le_of_lt h1.2, rfl, rfl,
          Nat.le_add_right _ _, Nat.le_add_right _ _, htail⟩
      · rw [if_neg hsz]
        push_neg at hsz
        simp only [List.cons_append, List.nil_append]
        rw [hsz] at htail ⊢
        exact ⟨rfl, rfl, le_of_lt h1.1, le_of_lt h1.2, by simpa using htail⟩
    · rw [if_neg h1]
      by_cases h2 : i < m.i
      · rw [if_pos h2]
        have hj : j = m.j := by omega
        by_cases hsz : m.size ≠ 0
        · rw [if_pos hsz]
          exact ⟨rfl, rfl, le_of_lt h2, le_of_eq hj, rfl, rfl,
            Nat.le_add_right _ _, Nat.le_add_right _ _, htail⟩
        · rw [if_neg hsz]
          push_neg at hsz
          simp only [List.cons_append, List.nil_append]
          rw [hsz] at htail ⊢
          refine ⟨rfl, rfl, le_of_lt h2, le_of_eq hj, ?_⟩
          show opcodesTile m.i m.j (chainEndI (m.i + 0) rest) (chainEndJ (m.j + 0) rest) _
          simpa using htail
      · rw [if_neg h2]
        by_cases h3 : j < m.j
        · rw [if_pos h3]
          have hi : i = m.i := by omega
          by_cases hsz : m.size ≠ 0
          · rw [if_pos hsz]
            exact ⟨rfl, rfl, le_of_eq hi, le_of_lt h3, rfl, rfl,
              Nat.le_add_right _ _, Nat.le_add_right _ _, htail⟩
          · rw [if_neg hsz]
            push_neg at hsz
            simp only [List.cons_append, List.nil_append]
            rw [hsz] at htail ⊢
            refine ⟨rfl, rfl, le_of_eq hi, le_of_lt h3, ?_⟩
            show opcodesTile m.i m.j (chainEndI (m.i + 0) rest) (chainEndJ (m.j + 0) rest) _
            simpa using htail
        · rw [if_neg h3]
          have hi : i = m.i := by omega
          have hj : j = m.j := by omega
          simp only [List.nil_append]
          by_cases hsz : m.size ≠ 0
          · rw [if_pos hsz]
            subst hi
            subst hj
            exact ⟨rfl, rfl, Nat.le_add_right _ _, Nat.le_add_right _ _, htail⟩
          · rw [if_neg hsz]
            push_neg at hsz
            rw [hsz] at htail ⊢
            subst hi
            subst hj
            simpa using htail

/-- The matching blocks of `get_matching_blocks` form a cursor-monotone chain
from `(0, 0)` whose final cursor is `(len a, len b)` (the sentinel). -/
theorem getMatchingBlocks_chain (a b : List Token) :
    BChain 0 0 (getMatchingBlocks a b) ∧
    chainEndI 0 (getMatchingBlocks a b) = a.length ∧
    chainEndJ 0 (getMatchingBlocks a b) = b.length := by
  have hbase := matchingBlocksAuxF_chain a b (b2jGet b) (a.length - 0) 0 a.length 0 b.length
  have hna := nonAdjacentAux_chain a.length b.length
    (matchingBlocksAuxF a b (b2jGet b) (a.length - 0) 0 a.length 0 b.length) 0 0 0
    hbase.1 (fun m hm => ⟨(hbase.2 m hm).2.1, (hbase.2 m hm).2.2⟩)
    (Nat.zero_le _) (Nat.zero_le _)
  refine ⟨?_, ?_, ?_⟩
  · unfold getMatchingBlocks matchingBlocksAux
    apply BChain_append _ _ 0 0 a.length b.length hna.1 hna.2 (Nat.zero_le _) (Nat.zero_le _)
    exact ⟨le_rfl, le_rfl, trivial⟩
  · unfold getMatchingBlocks
    rw [chainEndI_append]
    simp [chainEndI]
  · unfold getMatchingBlocks
    rw [chainEndJ_append]
    simp [chainEndJ]

/-- `get_opcodes` tiles `[0, len a) x [0, len b)` exactly: consecutive opcode
ranges are contiguous on both sides, each range is well-formed, and the walk
ends at the two lengths. -/
theorem getOpcodes_tile (a b : List Token) :
    opcodesTile 0 0 a.length b.length (getOpcodes a b) := by
  have hch := getMatchingBlocks_chain a b
  have := opcodesLoop_tile (getMatchingBlocks a b) 0 0 hch.1
  rw [hch.2.1, hch.2.2] at this
  exact this

/-- C1: for every pair of input strings, the opcodes produced by the aligner
inside `identify_changes` partition `[0, len(tokens(original)))` with their
original ranges and `[0, len(tokens(corrected)))` with their corrected ranges
exactly: each opcode starts where the previous one ended on both sides
(ordered, contiguous, non-overlapping), every range is well-formed, and the
final opcode ends at the two token counts. -/
theorem c1_opcodes_partition (original corrected : List Char) :
    opcodesTile 0 0 (wp_tokenize original).length (wp_tokenize corrected).length
      (getOpcodes (wp_tokenize original) (wp_tokenize corrected)) :=
  getOpcodes_tile (wp_tokenize original) (wp_tokenize corrected)

/-- Below the cap, the change loop returns exactly the non-`equal` opcodes,
truncated to the remaining budget, each mapped to its change dict. -/
theorem changesLoop_eq_take (mm : ModelManagerState) (ot ct : List Token) :
    ∀ (ops : List Opcode) (count : Nat), count < 50 →
      changesLoop mm ot ct ops count =
        ((ops.filter fun op => decide (op.tag ≠ OpTag.equal)).take (50 - count)).map
          (mkChange mm ot ct) := by
  intro ops
  induction ops with
  | nil => intro count _; simp [changesLoop]
  | cons op rest ih =>
    intro count hc
    simp only [changesLoop]
    by_cases he : op.tag = OpTag.equal
    · rw [if_pos he]
      have hpe : (decide (op.tag ≠ OpTag.equal)) = false := by simp [he]
      rw [List.filter_cons, hpe]
      simp only [Bool.false_eq_true, if_false]
      exact ih count hc
    · rw [if_neg he]
      have hpe : (decide (op.tag ≠ OpTag.equal)) = true := by simp [he]
      rw [List.filter_cons, hpe]
      simp only [if_true]
      have hsplit : 50 - count = (50 - (count + 1)) + 1 := by omega
      rw [hsplit, List.take_succ_cons, List.map_cons]
      by_cases h50 : 50 ≤ count + 1
      · rw [if_pos h50]
        have hz : 50 - (count + 1) = 0 := by omega
        rw [hz, List.take_zero, List.map_nil]
      · rw [if_neg h50]
        push_neg at h50
        rw [ih (count + 1) h50]

/-- C4: for every pair of input strings, `identify_changes` returns exactly
the first (at most) 50 non-`equal` opcodes mapped to change dicts, so its
length is the minimum of 50 and the number of non-`equal` opcodes: never more
than 50, and exactly 50 whenever the alignment produces more than 50
non-`equal` opcodes (the loop breaks at the cap). -/
theorem c4_edit_cap (mm : ModelManagerState) (original corrected : List Char) :
    identify_changes mm original corrected =
      (((getOpcodes (wp_tokenize original) (wp_tokenize corrected)).filter
          fun op => decide (op.tag ≠ OpTag.equal)).take 50).map
        (mkChange mm (wp_tokenize original) (wp_tokenize corrected)) ∧
    (identify_changes mm original corrected).length =
      min 50 ((getOpcodes (wp_tokenize original) (wp_tokenize corrected)).filter
          fun op => decide (op.tag ≠ OpTag.equal)).length := by
  have h := changesLoop_eq_take mm (wp_tokenize original) (wp_tokenize corrected)
    (getOpcodes (wp_tokenize original) (wp_tokenize corrected)) 0 (by omega)
  have heq : identify_changes mm original corrected =
      (((getOpcodes (wp_tokenize original) (wp_tokenize corrected)).filter
          fun op => decide (op.tag ≠ OpTag.equal)).take 50).map
        (mkChange mm (wp_tokenize original) (wp_tokenize corrected)) := h
  refine ⟨heq, ?_⟩
  rw [heq, List.length_map, List.length_take]

theorem containsPair_tail {x y c : Char} {l : List Char}
    (h : containsPair x y (c :: l) = false) : containsPair x y l = false := by
  cases l with
  | nil => rfl
  | cons d r =>
    simp only [containsPair, Bool.or_eq_false_iff] at h
    exact h.2

theorem containsPair_head {x y c d : Char} {r : List Char}
    (h : containsPair x y (c :: d :: r) = false) : ¬(c = x ∧ d = y) := by
  simp only [containsPair, Bool.or_eq_false_iff, decide_eq_false_iff_not] at h
  exact h.1

theorem containsPair_cons_false {x y c : Char} {l : List Char}
    (h1 : ∀ d r, l = d :: r → ¬(c = x ∧ d = y)) (h2 : containsPair x y l = false) :
    containsPair x y (c :: l) = false := by
  cases l with
  | nil => rfl
  | cons d r =>
    simp only [containsPair, Bool.or_eq_false_iff, decide_eq_false_iff_not]
    exact ⟨h1 d r rfl, h2⟩

theorem containsPair_of_not_mem (x y : Char) : ∀ (l : List Char), x ∉ l →
    containsPair x y l = false := by
  intro l
  induction l with
  | nil => intro _; rfl
  | cons c rest ih =>
    intro h
    apply containsPair_cons_false
    · intro d r _ hcd
      exact h (by rw [hcd.1]; exact List.mem_cons_self _ _)
    · exact ih (fun hx => h (List.mem_cons_of_mem _ hx))

theorem containsPair_append_no_x (x y : Char) : ∀ (l1 l2 : List Char),
    x ∉ l1 → containsPair x y l2 = false → containsPair x y (l1 ++ l2) = false := by
  intro l1
  induction l1 with
  | nil => intro l2 _ h2; simpa using h2
  | cons c rest ih =>
    intro l2 h1 h2
    rw [List.cons_append]
    apply containsPair_cons_false
    · intro d r _ hcd
      exact h1 (by rw [hcd.1]; exact List.mem_cons_self _ _)
    · exact ih l2 (fun hx => h1 (List.mem_cons_of_mem _ hx)) h2

/-- Every well-formed token is nonempty and contains no space character. -/
theorem goodToken_shape {t : List Char} (h : isGoodToken t = true) :
    t ≠ [] ∧ ' ' ∉ t := by
  simp only [isGoodToken, Bool.or_eq_true, Bool.and_eq_true, decide_eq_true_eq] at h
  rcases h with (h | h) | h
  · obtain ⟨htw, hm⟩ := h
    constructor
    · intro hnil
      subst hnil
      simp at htw
    · intro hsp
      rw [← List.takeWhile_append_dropWhile (p := Char.isAlpha) (l := t)] at hsp
      rcases List.mem_append.mp hsp with hin | hin
      · exact absurd (List.mem_takeWhile_imp hin) (by decide)
      · cases hdw : t.dropWhile Char.isAlpha with
        | nil =>
          rw [hdw] at hin
          exact absurd hin (List.not_mem_nil _)
        | cons q m =>
          simp only [hdw, Bool.and_eq_true, decide_eq_true_eq, List.all_eq_true] at hm
          rw [hdw] at hin
          rcases List.mem_cons.mp hin with hq | hin
          · rw [← hq] at hm
            exact absurd hm.1.1 (by decide)
          · exact absurd (hm.2 _ hin) (by decide)
  · obtain ⟨hne, hall⟩ := h
    refine ⟨hne, ?_⟩
    intro hsp
    rw [List.all_eq_true] at hall
    exact absurd (hall _ hsp) (by decide)
  · rcases t with _ | ⟨c, _ | ⟨d, r⟩⟩
    · exact absurd h (by simp)
    · simp only [Bool.and_eq_true, Bool.not_eq_true'] at h
      refine ⟨by simp, ?_⟩
      intro hsp
      rcases List.mem_singleton.mp hsp with rfl
      exact absurd h.2 (by decide)
    · exact absurd h (by simp)

/-- `" ".join` of a nonempty token list starts with a character of the first
token. -/
theorem joinSpace_cons_head (t : List Char) (ts : List Token) (ht : t ≠ []) :
    ∃ c r, joinSpace (t :: ts) = c :: r ∧ c ∈ t := by
  cases t with
  | nil => exact absurd rfl ht
  | cons c tr =>
    cases ts with
    | nil => exact ⟨c, tr, rfl, List.mem_cons_self _ _⟩
    | cons t2 ts2 =>
      exact ⟨c, tr ++ ' ' :: joinSpace (t2 :: ts2), rfl, List.mem_cons_self _ _⟩

/-- Joining nonempty space-free tokens with single spaces never produces two
adjacent spaces. -/
theorem joinSpace_clean : ∀ (ts : List Token),
    (∀ t ∈ ts, t ≠ [] ∧ ' ' ∉ t) →
    containsPair ' ' ' ' (joinSpace ts) = false := by
  intro ts
  induction ts with
  | nil => intro _; rfl
  | cons t ts2 ih =>
    intro h
    cases ts2 with
    | nil => exact containsPair_of_not_mem _ _ t (h t (List.mem_cons_self _ _)).2
    | cons t2 ts3 =>
      show containsPair ' ' ' ' (t ++ ' ' :: joinSpace (t2 :: ts3)) = false
      apply containsPair_append_no_x _ _ t _ (h t (List.mem_cons_self _ _)).2
      obtain ⟨c, r, hjr, hcmem⟩ :=
        joinSpace_cons_head t2 ts3 (h t2 (by simp)).1
      rw [hjr]
      apply containsPair_cons_false
      · intro d r2 heq hcd
        cases heq
        exact (h t2 (by simp)).2 (hcd.2 ▸ hcmem)
      · rw [← hjr]
        exact ih (fun u hu => h u (List.mem_cons_of_mem _ hu))

/-- The head of `replaceSpaceBefore p` on a nonempty list: either the original
head survives, or the head was a space consumed by a replacement and the
pattern character `p` is now first. -/
theorem replaceSpaceBefore_head (p d : Char) (rest : List Char) :
    ∃ h0 t0, replaceSpaceBefore p (d :: rest) = h0 :: t0 ∧
      (h0 = d ∨ (d = ' ' ∧ h0 = p)) := by
  cases rest with
  | nil => exact ⟨d, [], rfl, Or.inl rfl⟩
  | cons e r =>
    by_cases h : d = ' ' ∧ e = p
    · refine ⟨p, replaceSpaceBefore p r, ?_, Or.inr ⟨h.1, rfl⟩⟩
      simp only [replaceSpaceBefore]
      rw [if_pos h]
    · refine ⟨d, replaceSpaceBefore p (e :: r), ?_, Or.inl rfl⟩
      simp only [replaceSpaceBefore]
      rw [if_neg h]

/-- On a string with no two adjacent spaces, `replace(" p", p)` removes every
space-before-`p` pair, keeps the no-double-space property, and does not create
a space before any other character. -/
theorem replaceSpaceBefore_clean (p : Char) (hp : p ≠ ' ') :
    ∀ (n : Nat) (s : List Char), s.length ≤ n →
      containsPair ' ' ' ' s = false →
      containsPair ' ' p (replaceSpaceBefore p s) = false ∧
      containsPair ' ' ' ' (replaceSpaceBefore p s) = false ∧
      ∀ q, q ≠ p → q ≠ ' ' → containsPair ' ' q s = false →
        containsPair ' ' q (replaceSpaceBefore p s) = false := by
  intro n
  induction n with
  | zero =>
    intro s hlen _
    have hs : s = [] := by cases s <;> simp_all
    subst hs
    exact ⟨rfl, rfl, fun q _ _ _ => rfl⟩
  | succ n ih =>
    intro s hlen hnds
    rcases s with _ | ⟨c, _ | ⟨d, rest⟩⟩
    · exact ⟨rfl, rfl, fun q _ _ _ => rfl⟩
    · exact ⟨rfl, rfl, fun q _ _ _ => rfl⟩
    · simp only [replaceSpaceBefore]
      by_cases hcd : c = ' ' ∧ d = p
      · rw [if_pos hcd]
        have hrest : containsPair ' ' ' ' rest = false :=
          containsPair_tail (containsPair_tail hnds)
        have ihr := ih rest (by simp at hlen; omega) hrest
        refine ⟨?_, ?_, ?_⟩
        · apply containsPair_cons_false
          · intro d0 r0 _ hpair
            exact hp hpair.1
          · exact ihr.1
        · apply containsPair_cons_false
          · intro d0 r0 _ hpair
            exact hp hpair.1
          · exact ihr.2.1
        · intro q hqp hqs hq
          apply containsPair_cons_false
          · intro d0 r0 _ hpair
            exact hp hpair.1
          · exact ihr.2.2 q hqp hqs (containsPair_tail (containsPair_tail hq))
      · rw [if_neg hcd]
        have hndt : containsPair ' ' ' ' (d :: rest) = false :=
          containsPair_tail hnds
        have ihr := ih (d :: rest) (by simp at hlen ⊢; omega) hndt
        obtain ⟨h0, t0, heq, hh0⟩ := replaceSpaceBefore_head p d rest
        refine ⟨?_, ?_, ?_⟩
        · rw [heq]
          apply containsPair_cons_false
          · intro d0 r0 heq0 hpair
            cases heq0
            rcases hh0 with h1 | ⟨h2a, h2b⟩
            · exact hcd ⟨hpair.1, by rw [← h1]; exact hpair.2⟩
            · exact containsPair_head hnds ⟨hpair.1, h2a⟩
          · rw [← heq]
            exact ihr.1
        · rw [heq]
          apply containsPair_cons_false
          · intro d0 r0 heq0 hpair
            cases heq0
            rcases hh0 with h1 | ⟨h2a, h2b⟩
            · exact containsPair_head hnds ⟨hpair.1, by rw [← h1]; exact hpair.2⟩
            · exact hp (by rw [← h2b]; exact hpair.2)
          · rw [← heq]
            exact ihr.2.1
        · intro q hqp hqs hq
          rw [heq]
          apply containsPair_cons_false
          · intro d0 r0 heq0 hpair
            cases heq0
            rcases hh0 with h1 | ⟨h2a, h2b⟩
            · exact containsPair_head hq ⟨hpair.1, by rw [← h1]; exact hpair.2⟩
            · exact hqp (by rw [← hpair.2]; exact h2b)
          · rw [← heq]
            exact ihr.2.2 q hqp hqs (containsPair_tail hq)

/-- Every detokenized segment over well-formed tokens contains no space before
a comma and no space before a period. -/
theorem segmentText_clean (tokens : List Token) (i1 i2 : Nat)
    (h : ∀ t ∈ tokens, isGoodToken t = true) :
    containsPair ' ' ',' (segmentText tokens i1 i2) = false ∧
    containsPair ' ' '.' (segmentText tokens i1 i2) = false := by
  have hts : ∀ t ∈ (tokens.drop i1).take (i2 - i1), t ≠ [] ∧ ' ' ∉ t := by
    intro t ht
    exact goodToken_shape (h t (List.mem_of_mem_drop (List.mem_of_mem_take ht)))
  have h0 : containsPair ' ' ' '
      (joinSpace ((tokens.drop i1).take (i2 - i1))) = false :=
    joinSpace_clean _ hts
  have hc := replaceSpaceBefore_clean ',' (by decide)
    (joinSpace ((tokens.drop i1).take (i2 - i1))).length _ le_rfl h0
  have hd := replaceSpaceBefore_clean '.' (by decide)
    (replaceSpaceBefore ',' (joinSpace ((tokens.drop i1).take (i2 - i1)))).length
    _ le_rfl hc.2.1
  exact ⟨hd.2.2 ',' (by decide) (by decide) hc.1, hd.1⟩

/-- The `from` and `to` fields of a change dict are `None` or the
corresponding detokenized segments. -/
theorem mkChange_texts (mm : ModelManagerState) (ot ct : List Token)
    (op : Opcode) :
    ((mkChange mm ot ct op).fromText = none ∨
      (mkChange mm ot ct op).fromText = some (segmentText ot op.i1 op.i2)) ∧
    ((mkChange mm ot ct op).toText = none ∨
      (mkChange mm ot ct op).toText = some (segmentText ct op.j1 op.j2)) := by
  rcases op with ⟨tag, a, b, c, d⟩
  cases tag <;> simp [mkChange]

/-- C8: for every pair of input strings and every edit produced by
`identify_changes`, neither the edit's `from` text nor its `to` text contains
a space immediately before a comma or immediately before a period. -/
theorem c8_segments_clean (mm : ModelManagerState)
    (original corrected : List Char) (ch : Change)
    (hm : ch ∈ identify_changes mm original corrected) :
    segClean ch.fromText = true ∧ segClean ch.toText = true := by
  have heq := changesLoop_eq_take mm (wp_tokenize original) (wp_tokenize corrected)
    (getOpcodes (wp_tokenize original) (wp_tokenize corrected)) 0 (by omega)
  rw [Nat.sub_zero] at heq
  simp only [identify_changes] at hm
  rw [heq] at hm
  rcases List.mem_map.mp hm with ⟨op, _, rfl⟩
  have hwfo : ∀ t ∈ wp_tokenize original, isGoodToken t = true :=
    wp_tokenize_wf_aux original.length original le_rfl
  have hwfc : ∀ t ∈ wp_tokenize corrected, isGoodToken t = true :=
    wp_tokenize_wf_aux corrected.length corrected le_rfl
  have hso := segmentText_clean (wp_tokenize original) op.i1 op.i2 hwfo
  have hsc := segmentText_clean (wp_tokenize corrected) op.j1 op.j2 hwfc
  have hmk := mkChange_texts mm (wp_tokenize original) (wp_tokenize corrected) op
  constructor
  · rcases hmk.1 with h | h <;> rw [h]
    · rfl
    · simp [segClean, hso.1, hso.2]
  · rcases hmk.2 with h | h <;> rw [h]
    · rfl
    · simp [segClean, hsc.1, hsc.2]

/-- On the concrete pair `("b .", "x")` the single replaced edit is in the
output and both its segments are clean. -/
theorem c8_segments_clean_witness :
    (mkChange mmNone (wp_tokenize "b .".toList) (wp_tokenize "x".toList)
        (Opcode.mk OpTag.replace 0 2 0 1)) ∈
      identify_changes mmNone "b .".toList "x".toList ∧
    segClean (mkChange mmNone (wp_tokenize "b .".toList) (wp_tokenize "x".toList)
        (Opcode.mk OpTag.replace 0 2 0 1)).fromText = true ∧
    segClean (mkChange mmNone (wp_tokenize "b .".toList) (wp_tokenize "x".toList)
        (Opcode.mk OpTag.replace 0 2 0 1)).toText = true := by
  have hm : (mkChange mmNone (wp_tokenize "b .".toList) (wp_tokenize "x".toList)
      (Opcode.mk OpTag.replace 0 2 0 1)) ∈
      identify_changes mmNone "b .".toList "x".toList := by decide
  exact ⟨hm, c8_segments_clean mmNone "b .".toList "x".toList _ hm⟩

theorem alistGetD_alistPut : ∀ (m : List (Nat × Nat)) (k v kq d : Nat),
    alistGetD (alistPut m k v) kq d = if kq = k then v else alistGetD m kq d := by
  intro m
  induction m with
  | nil =>
    intro k v kq d
    simp only [alistPut, alistGetD]
    by_cases h : k = kq
    · rw [if_pos h, if_pos h.symm]
    · rw [if_neg h, if_neg (fun hh => h hh.symm)]
  | cons p rest ih =>
    intro k v kq d
    rcases p with ⟨k0, v0⟩
    simp only [alistPut]
    by_cases h0 : k0 = k
    · rw [if_pos h0]
      simp only [alistGetD]
      by_cases h1 : k = kq
      · rw [if_pos h1, if_pos h1.symm]
      · rw [if_neg h1, if_neg (fun hh => h1 hh.symm)]
        subst h0
        rw [if_neg h1]
    · rw [if_neg h0]
      simp only [alistGetD]
      by_cases h1 : k0 = kq
      · rw [if_pos h1, if_pos h1]
        rw [if_neg]
        intro hh
        exact h0 (by rw [h1, hh])
      · rw [if_neg h1, if_neg h1]
        exact ih k v kq d

/-- Membership in the index scan: every collected position is in range and
holds the sought token. -/
theorem b2jPositionsAux_mem (t : Token) : ∀ (xs : List Token) (i0 j : Nat),
    j ∈ b2jPositionsAux t i0 xs →
    i0 ≤ j ∧ j - i0 < xs.length ∧ xs.getD (j - i0) [] = t := by
  intro xs
  induction xs with
  | nil => intro i0 j h; exact absurd h (List.not_mem_nil _)
  | cons x xs ih =>
    intro i0 j h
    simp only [b2jPositionsAux] at h
    by_cases hx : x = t
    · rw [if_pos hx] at h
      rcases List.mem_cons.mp h with rfl | h
      · refine ⟨le_rfl, by simp, ?_⟩
        rw [Nat.sub_self]
        simpa using hx
      · have hres := ih (i0 + 1) j h
        refine ⟨by omega, by simp only [List.length_cons]; omega, ?_⟩
        have hs : j - i0 = (j - (i0 + 1)) + 1 := by omega
        rw [hs, List.getD_cons_succ]
        exact hres.2.2
    · rw [if_neg hx] at h
      have hres := ih (i0 + 1) j h
      refine ⟨by omega, by simp only [List.length_cons]; omega, ?_⟩
      have hs : j - i0 = (j - (i0 + 1)) + 1 := by omega
      rw [hs, List.getD_cons_succ]
      exact hres.2.2

/-- Completeness of the index scan: the position of any occurrence of the
token is collected. -/
theorem b2jPositionsAux_self (t : Token) : ∀ (xs : List Token) (i0 k : Nat),
    k < xs.length → xs.getD k [] = t → (i0 + k) ∈ b2jPositionsAux t i0 xs := by
  intro xs
  induction xs with
  | nil => intro i0 k h; simp at h
  | cons x xs ih =>
    intro i0 k hk hg
    simp only [b2jPositionsAux]
    cases k with
    | zero =>
      simp only [List.getD_cons_zero] at hg
      rw [if_pos hg]
      simp
    | succ k2 =>
      rw [List.getD_cons_succ] at hg
      have hmem := ih (i0 + 1) k2 (by simp only [List.length_cons] at hk; omega) hg
      have h2 : i0 + (k2 + 1) = (i0 + 1) + k2 := by omega
      by_cases hx : x = t
      · rw [if_pos hx]
        apply List.mem_cons_of_mem
        rw [h2]
        exact hmem
      · rw [if_neg hx]
        rw [h2]
        exact hmem

/-- The index scan produces a strictly ascending list. -/
theorem b2jPositionsAux_sorted (t : Token) : ∀ (xs : List Token) (i0 : Nat),
    (b2jPositionsAux t i0 xs).Pairwise (· < ·) := by
  intro xs
  induction xs with
  | nil => intro i0; exact List.Pairwise.nil
  | cons x xs ih =>
    intro i0
    simp only [b2jPositionsAux]
    by_cases hx : x = t
    · rw [if_pos hx]
      refine List.Pairwise.cons ?_ (ih (i0 + 1))
      intro j hj
      have := b2jPositionsAux_mem t xs (i0 + 1) j hj
      omega
    · rw [if_neg hx]
      exact ih (i0 + 1)

/-- Every position in `b2j.get(t, [])` is in range and holds `t`. -/
theorem b2jGet_mem {b : List Token} {t : Token} {j : Nat} (h : j ∈ b2jGet b t) :
    j < b.length ∧ b.getD j [] = t := by
  simp only [b2jGet] at h
  by_cases hp : isPopular b t = true
  · simp only [hp, if_true] at h
    exact absurd h (List.not_mem_nil _)
  · simp only [hp, Bool.false_eq_true, if_false] at h
    have hres := b2jPositionsAux_mem t b 0 j h
    rw [Nat.sub_zero] at hres
    exact ⟨by omega, hres.2.2⟩

/-- When `b2j.get(b[i], [])` is nonempty, it contains `i` itself. -/
theorem b2jGet_self {b : List Token} {i : Nat} (hi : i < b.length)
    (hne : b2jGet b (b.getD i []) ≠ []) : i ∈ b2jGet b (b.getD i []) := by
  simp only [b2jGet] at hne ⊢
  by_cases hp : isPopular b (b.getD i []) = true
  · rw [hp] at hne
    simp at hne
  · simp only [hp, Bool.false_eq_true, if_false] at hne ⊢
    have := b2jPositionsAux_self (b.getD i []) b 0 i hi rfl
    simpa using this

/-- `b2j.get(t, [])` is strictly ascending. -/
theorem b2jGet_sorted (b : List Token) (t : Token) :
    (b2jGet b t).Pairwise (· < ·) := by
  simp only [b2jGet]
  by_cases hp : isPopular b t = true
  · simp only [hp, if_true]
    exact List.Pairwise.nil
  · simp only [hp, Bool.false_eq_true, if_false]
    exact b2jPositionsAux_sorted t b 0

/-- The diagonal chain value is positive exactly on the rows whose element
survives in `b2j`. -/
theorem diagChain_pos {a : List Token} {b2 : Token → List Nat} {i : Nat}
    (h : i ∈ b2 (a.getD i [])) : 1 ≤ diagChain a b2 i := by
  cases i with
  | zero =>
    simp only [diagChain]
    rw [if_pos h]
  | succ e =>
    simp only [diagChain]
    rw [if_pos h]
    omega

/-- On the self-comparison, the left extension loop walks a diagonal match
all the way to the start. -/
theorem extendLeftF_self_diag (a : List Token) : ∀ (fuel i s : Nat), i ≤ fuel →
    extendLeftF a a 0 0 fuel (SMatch.mk i i s) = SMatch.mk 0 0 (s + i) := by
  intro fuel
  induction fuel with
  | zero =>
    intro i s h
    have hi : i = 0 := by omega
    subst hi
    rfl
  | succ fuel ih =>
    intro i s h
    simp only [extendLeftF, SMatch_mk_i, SMatch_mk_j, SMatch_mk_size]
    by_cases hi : 0 < i
    · rw [if_pos ⟨hi, hi, trivial⟩]
      rw [ih (i - 1) (s + 1) (by omega)]
      have hz : s + 1 + (i - 1) = s + i := by omega
      rw [hz]
    · have hi0 : i = 0 := by omega
      subst hi0
      rw [if_neg (by simp), Nat.add_zero]

/-- On the self-comparison, the right extension loop grows a prefix match to
the full length. -/
theorem extendRightF_self_diag (a : List Token) : ∀ (fuel s : Nat),
    a.length ≤ s + fuel → s ≤ a.length →
    extendRightF a a a.length a.length fuel (SMatch.mk 0 0 s) =
      SMatch.mk 0 0 a.length := by
  intro fuel
  induction fuel with
  | zero =>
    intro s h1 h2
    have hs : s = a.length := by omega
    subst hs
    rfl
  | succ fuel ih =>
    intro s h1 h2
    simp only [extendRightF, SMatch_mk_i, SMatch_mk_j, SMatch_mk_size]
    by_cases hs : s < a.length
    · rw [if_pos ⟨by omega, by omega, trivial⟩]
      exact ih (s + 1) (by omega) (by omega)
    · have hs2 : s = a.length := by omega
      subst hs2
      rw [if_neg (by simp)]

/-- Diagonal dominance of the inner loop on the self-comparison: chains are
bounded by the diagonal chain of both their row and their column, the
ascending iteration meets the diagonal key first, so the best match stays on
the diagonal and the new dict records the diagonal chain exactly. -/
theorem jloop_diag (a : List Token) (b2 : Token → List Nat) (i : Nat)
    (himem : i ∈ b2 (a.getD i [])) :
    ∀ (js : List Nat) (j2len new : List (Nat × Nat)) (best : SMatch),
      js.Pairwise (· < ·) →
      (∀ j ∈ js, j < a.length ∧ j ∈ b2 (a.getD j [])) →
      (∀ jj, alistGetD j2len jj 0 ≤ diagChain a b2 jj) →
      (∀ jj, alistGetD j2len jj 0 + 1 ≤ diagChain a b2 i) →
      ((if i = 0 then 0 else alistGetD j2len (i - 1) 0) + 1 = diagChain a b2 i) →
      best.i = best.j →
      (∀ e, e < i → diagChain a b2 e ≤ best.size) →
      (i ∈ js ∨ (diagChain a b2 i ≤ best.size ∧
        alistGetD new i 0 = diagChain a b2 i)) →
      (∀ jj, alistGetD new jj 0 ≤ diagChain a b2 i) →
      (∀ jj, alistGetD new jj 0 ≤ diagChain a b2 jj) →
      (jloop j2len 0 a.length i js new best).2.i =
        (jloop j2len 0 a.length i js new best).2.j ∧
      (∀ e, e < i →
        diagChain a b2 e ≤ (jloop j2len 0 a.length i js new best).2.size) ∧
      diagChain a b2 i ≤ (jloop j2len 0 a.length i js new best).2.size ∧
      (∀ jj, alistGetD (jloop j2len 0 a.length i js new best).1 jj 0 ≤
        diagChain a b2 i) ∧
      (∀ jj, alistGetD (jloop j2len 0 a.length i js new best).1 jj 0 ≤
        diagChain a b2 jj) ∧
      alistGetD (jloop j2len 0 a.length i js new best).1 i 0 =
        diagChain a b2 i := by
  intro js
  induction js with
  | nil =>
    intro j2len new best _ _ hcol hrow hdk hbd hbe hph hnrow hncol
    rcases hph with hph | hph
    · exact absurd hph (List.not_mem_nil _)
    · exact ⟨hbd, hbe, hph.1, hnrow, hncol, hph.2⟩
  | cons j js ih =>
    intro j2len new best hsort hmem hcol hrow hdk hbd hbe hph hnrow hncol
    have hjmem := hmem j (List.mem_cons_self _ _)
    have hsort2 := List.pairwise_cons.mp hsort
    simp only [jloop]
    rw [if_neg (Nat.not_lt_zero j), if_neg (by omega : ¬ a.length ≤ j)]
    have hkdi : (if j = 0 then 0 else alistGetD j2len (j - 1) 0) + 1 ≤
        diagChain a b2 i := by
      by_cases hj0 : j = 0
      · rw [if_pos hj0]
        exact diagChain_pos himem
      · rw [if_neg hj0]
        exact hrow (j - 1)
    have hkdj : (if j = 0 then 0 else alistGetD j2len (j - 1) 0) + 1 ≤
        diagChain a b2 j := by
      by_cases hj0 : j = 0
      · subst hj0
        rw [if_pos rfl]
        exact diagChain_pos hjmem.2
      · rw [if_neg hj0]
        obtain ⟨j2, rfl⟩ : ∃ j2, j = j2 + 1 := ⟨j - 1, by omega⟩
        simp only [Nat.add_sub_cancel]
        have hdj : diagChain a b2 (j2 + 1) = diagChain a b2 j2 + 1 := by
          simp only [diagChain]
          rw [if_pos hjmem.2]
        rw [hdj]
        have := hcol j2
        omega
    set k := (if j = 0 then 0 else alistGetD j2len (j - 1) 0) + 1 with hkdef
    have hnrow2 : ∀ jj, alistGetD (alistPut new j k) jj 0 ≤ diagChain a b2 i := by
      intro jj
      rw [alistGetD_alistPut]
      by_cases hjj : jj = j
      · rw [if_pos hjj]
        exact hkdi
      · rw [if_neg hjj]
        exact hnrow jj
    have hncol2 : ∀ jj, alistGetD (alistPut new j k) jj 0 ≤ diagChain a b2 jj := by
      intro jj
      rw [alistGetD_alistPut]
      by_cases hjj : jj = j
      · rw [if_pos hjj, hjj]
        exact hkdj
      · rw [if_neg hjj]
        exact hncol jj
    by_cases hje : j = i
    · subst hje
      have hkeq : k = diagChain a b2 j := by rw [hkdef, hdk]
      have hdput : alistGetD (alistPut new j k) j 0 = diagChain a b2 j := by
        rw [alistGetD_alistPut, if_pos rfl, hkeq]
      by_cases hupd : best.size < k
      · rw [if_pos hupd]
        apply ih j2len (alistPut new j k) (SMatch.mk (j + 1 - k) (j + 1 - k) k)
          hsort2.2 (fun x hx => hmem x (List.mem_cons_of_mem _ hx))
          hcol hrow hdk rfl
        · intro e he
          have := hbe e he
          simp only [SMatch_mk_size]
          omega
        · refine Or.inr ⟨?_, hdput⟩
          simp only [SMatch_mk_size]
          omega
        · exact hnrow2
        · exact hncol2
      · rw [if_neg hupd]
        apply ih j2len (alistPut new j k) best hsort2.2
          (fun x hx => hmem x (List.mem_cons_of_mem _ hx)) hcol hrow hdk hbd hbe
        · exact Or.inr ⟨by omega, hdput⟩
        · exact hnrow2
        · exact hncol2
    · have hine : alistGetD (alistPut new j k) i 0 = alistGetD new i 0 := by
        rw [alistGetD_alistPut, if_neg (fun hh => hje hh.symm)]
      by_cases hjlt : j < i
      · have hnoupd : ¬ best.size < k := by
          have h1 := hbe j hjlt
          omega
        rw [if_neg hnoupd]
        apply ih j2len (alistPut new j k) best hsort2.2
          (fun x hx => hmem x (List.mem_cons_of_mem _ hx)) hcol hrow hdk hbd hbe
        · rcases hph with hph | hph
          · rcases List.mem_cons.mp hph with hph | hph
            · exact absurd hph (fun hh => hje hh.symm)
            · exact Or.inl hph
          · exact Or.inr ⟨hph.1, by rw [hine]; exact hph.2⟩
        · exact hnrow2
        · exact hncol2
      · have hjgt : i < j := by omega
        have hph2 : diagChain a b2 i ≤ best.size ∧
            alistGetD new i 0 = diagChain a b2 i := by
          rcases hph with hph | hph
          · rcases List.mem_cons.mp hph with hph | hph
            · exact absurd hph.symm hje
            · have := hsort2.1 i hph
              omega
          · exact hph
        have hnoupd : ¬ best.size < k := by
          have := hph2.1
          omega
        rw [if_neg hnoupd]
        apply ih j2len (alistPut new j k) best hsort2.2
          (fun x hx => hmem x (List.mem_cons_of_mem _ hx)) hcol hrow hdk hbd hbe
        · exact Or.inr ⟨hph2.1, by rw [hine]; exact hph2.2⟩
        · exact hnrow2
        · exact hncol2

/-- On the self-comparison, the outer loop keeps the best match on the
diagonal. -/
theorem iloopF_diag (a : List Token) :
    ∀ (fuel i : Nat) (j2len : List (Nat × Nat)) (best : SMatch),
      best.i = best.j →
      (∀ e, e < i → diagChain a (b2jGet a) e ≤ best.size) →
      (∀ jj, alistGetD j2len jj 0 ≤ diagChain a (b2jGet a) jj) →
      (∀ e, i = e + 1 → ∀ jj, alistGetD j2len jj 0 ≤ diagChain a (b2jGet a) e) →
      (i = 0 → j2len = []) →
      (∀ e, i = e + 1 → alistGetD j2len e 0 = diagChain a (b2jGet a) e) →
      (iloopF a (b2jGet a) 0 a.length fuel i a.length j2len best).i =
        (iloopF a (b2jGet a) 0 a.length fuel i a.length j2len best).j := by
  intro fuel
  induction fuel with
  | zero => intro i j2len best hbd _ _ _ _ _; exact hbd
  | succ fuel ih =>
    intro i j2len best hbd hbe hcol hrow h0 hdiag
    simp only [iloopF]
    by_cases hia : i < a.length
    · rw [if_pos hia]
      by_cases hne : b2jGet a (a.getD i []) = []
      · rw [hne]
        have hd0 : diagChain a (b2jGet a) i = 0 := by
          cases i with
          | zero =>
            simp only [diagChain]
            rw [if_neg (by rw [hne]; exact List.not_mem_nil _)]
          | succ e =>
            simp only [diagChain]
            rw [if_neg (by rw [hne]; exact List.not_mem_nil _)]
        apply ih (i + 1) [] best hbd
        · intro e he
          by_cases hei : e < i
          · exact hbe e hei
          · have : e = i := by omega
            subst this
            rw [hd0]
            exact Nat.zero_le _
        · intro jj
          exact Nat.zero_le _
        · intro e he jj
          exact Nat.zero_le _
        · intro he
          rfl
        · intro e he
          have : e = i := by omega
          subst this
          rw [hd0]
          rfl
      · have himem := b2jGet_self hia hne
        have hmemj : ∀ j ∈ b2jGet a (a.getD i []),
            j < a.length ∧ j ∈ b2jGet a (a.getD j []) := by
          intro j hj
          have hgm := b2jGet_mem hj
          refine ⟨hgm.1, ?_⟩
          rw [← hgm.2] at hj
          exact hj
        have hstep : ∀ e, i = e + 1 →
            diagChain a (b2jGet a) i = diagChain a (b2jGet a) e + 1 := by
          intro e he
          subst he
          simp only [diagChain]
          rw [if_pos himem]
        have hrowj : ∀ jj, alistGetD j2len jj 0 + 1 ≤ diagChain a (b2jGet a) i := by
          intro jj
          by_cases hi0 : i = 0
          · rw [h0 hi0]
            have h1 := diagChain_pos himem
            simp only [alistGetD]
            omega
          · obtain ⟨e, rfl⟩ : ∃ e, i = e + 1 := ⟨i - 1, by omega⟩
            have hr := hrow e rfl jj
            rw [hstep e rfl]
            omega
        have hdkj : (if i = 0 then 0 else alistGetD j2len (i - 1) 0) + 1 =
            diagChain a (b2jGet a) i := by
          by_cases hi0 : i = 0
          · rw [if_pos hi0]
            subst hi0
            simp only [diagChain]
            rw [if_pos himem]
          · rw [if_neg hi0]
            obtain ⟨e, rfl⟩ : ∃ e, i = e + 1 := ⟨i - 1, by omega⟩
            simp only [Nat.add_sub_cancel]
            rw [hdiag e rfl, hstep e rfl]
        have hres := jloop_diag a (b2jGet a) i himem (b2jGet a (a.getD i []))
          j2len [] best (b2jGet_sorted a (a.getD i [])) hmemj hcol hrowj hdkj
          hbd hbe (Or.inl himem) (fun jj => Nat.zero_le _) (fun jj => Nat.zero_le _)
        rcases hjl : jloop j2len 0 a.length i (b2jGet a (a.getD i [])) [] best
          with ⟨new2, best2⟩
        rw [hjl] at hres
        exact ih (i + 1) new2 best2 hres.1
          (by
            intro e he
            by_cases hei : e < i
            · exact hres.2.1 e hei
            · have : e = i := by omega
              subst this
              exact hres.2.2.1)
          hres.2.2.2.2.1
          (by
            intro e he jj
            have : e = i := by omega
            subst this
            exact hres.2.2.2.1 jj)
          (by intro he; omega)
          (by
            intro e he
            have : e = i := by omega
            subst this
            exact hres.2.2.2.2.2)
    · rw [if_neg hia]
      exact hbd

/-- `find_longest_match` over the full range of the self-comparison returns
the whole sequence as one match. -/
theorem findLongestMatch_self (a : List Token) :
    findLongestMatch a a (b2jGet a) 0 a.length 0 a.length =
      SMatch.mk 0 0 a.length := by
  have hd := iloopF_diag a (a.length - 0) 0 [] (SMatch.mk 0 0 0) rfl
    (fun e he => absurd he (Nat.not_lt_zero e))
    (fun jj => Nat.zero_le _)
    (fun e he jj => absurd he (by omega))
    (fun _ => rfl)
    (fun e he => absurd he (by omega))
  have hs := iloopF_sound a (b2jGet a) 0 a.length (a.length - 0) 0 a.length []
    (SMatch.mk 0 0 0) 0 le_rfl
    (fun p hp => absurd hp (List.not_mem_nil p))
    ⟨le_rfl, le_rfl, fun h => absurd h (by simp), fun _ => ⟨rfl, rfl⟩⟩
  rcases hme : iloopF a (b2jGet a) 0 a.length (a.length - 0) 0 a.length []
    (SMatch.mk 0 0 0) with ⟨x, y, z⟩
  rw [hme] at hd hs
  simp only [WFbest, SMatch_mk_i, SMatch_mk_j, SMatch_mk_size] at hd hs
  rcases hs with ⟨_, _, hpos, hzero⟩
  have hxz : x + z ≤ a.length := by
    rcases Nat.eq_zero_or_pos z with hz | hz
    · have h2 := (hzero hz).1
      omega
    · exact (hpos hz).1
  subst hd
  simp only [findLongestMatch]
  rw [hme]
  simp only [extendLeft, SMatch_mk_i]
  rw [extendLeftF_self_diag a x x z le_rfl]
  simp only [extendRight, SMatch_mk_i, SMatch_mk_j, SMatch_mk_size, Nat.zero_add]
  rw [extendRightF_self_diag a (a.length - (z + x)) (z + x) (by omega) (by omega)]

theorem extendLeftF_stop (a b : List Token) (alo blo : Nat) :
    ∀ (fuel : Nat) (m : SMatch), ¬ alo < m.i →
      extendLeftF a b alo blo fuel m = m := by
  intro fuel m h
  cases fuel with
  | zero => rfl
  | succ fuel =>
    simp only [extendLeftF]
    rw [if_neg (fun hc => h hc.1)]

theorem extendRightF_stop (a b : List Token) (ahi bhi : Nat) :
    ∀ (fuel : Nat) (m : SMatch), ¬ m.i + m.size < ahi →
      extendRightF a b ahi bhi fuel m = m := by
  intro fuel m h
  cases fuel with
  | zero => rfl
  | succ fuel =>
    simp only [extendRightF]
    rw [if_neg (fun hc => h hc.1)]

/-- On an empty `a`-range the search returns the empty match at the range
origin. -/
theorem findLongestMatch_empty_range (a b : List Token) (b2 : Token → List Nat)
    (alo blo bhi : Nat) :
    findLongestMatch a b b2 alo alo blo bhi = SMatch.mk alo blo 0 := by
  simp only [findLongestMatch, Nat.sub_self, iloopF]
  simp only [extendLeft, SMatch_mk_i]
  rw [extendLeftF_stop a b alo blo _ _ (by simp)]
  simp only [extendRight, SMatch_mk_i, SMatch_mk_j, SMatch_mk_size]
  rw [extendRightF_stop a b alo bhi _ _ (by simp)]

/-- On an empty `a`-range the block collection is empty. -/
theorem matchingBlocksAuxF_empty_range (a b : List Token) (b2 : Token → List Nat) :
    ∀ (fuel alo blo bhi : Nat),
      matchingBlocksAuxF a b b2 fuel alo alo blo bhi = [] := by
  intro fuel alo blo bhi
  cases fuel with
  | zero => rfl
  | succ fuel =>
    simp only [matchingBlocksAuxF, findLongestMatch_empty_range]
    rw [if_neg (by omega)]

/-- On the self-comparison the recursive block collection returns the single
full-length block (or nothing when the sequence is empty). -/
theorem matchingBlocksAux_self (a : List Token) :
    matchingBlocksAux a a (b2jGet a) 0 a.length 0 a.length =
      if a.length = 0 then [] else [SMatch.mk 0 0 a.length] := by
  have hflm := findLongestMatch_self a
  by_cases hn : a.length = 0
  · rw [if_pos hn]
    simp only [matchingBlocksAux, Nat.sub_zero]
    rw [hn]
    rfl
  · rw [if_neg hn]
    obtain ⟨w, hw⟩ : ∃ w, a.length = w + 1 := ⟨a.length - 1, by omega⟩
    simp only [matchingBlocksAux, Nat.sub_zero]
    rw [hw] at hflm ⊢
    simp only [matchingBlocksAuxF, hflm]
    rw [if_pos ⟨by omega, by omega, by omega, by omega, by omega⟩]
    simp only [Nat.zero_add]
    rw [matchingBlocksAuxF_empty_range, matchingBlocksAuxF_empty_range]
    rfl

/-- `get_matching_blocks` on the self-comparison: the full-length block (when
nonempty) followed by the sentinel. -/
theorem getMatchingBlocks_self (a : List Token) :
    getMatchingBlocks a a =
      (if a.length = 0 then [] else [SMatch.mk 0 0 a.length]) ++
        [SMatch.mk a.length a.length 0] := by
  simp only [getMatchingBlocks, matchingBlocksAux_self]
  by_cases hn : a.length = 0
  · rw [if_pos hn]
    rfl
  · rw [if_neg hn]
    simp only [nonAdjacentAux, SMatch_mk_i, SMatch_mk_j, SMatch_mk_size]
    rw [if_pos (by simp)]
    simp only [Nat.zero_add]
    rw [if_pos hn]

/-- `get_opcodes` on the self-comparison is a single `equal` opcode covering
everything (or empty for the empty sequence). -/
theorem getOpcodes_self (a : List Token) :
    getOpcodes a a = if a.length = 0 then []
      else [Opcode.mk OpTag.equal 0 a.length 0 a.length] := by
  simp only [getOpcodes, getMatchingBlocks_self]
  by_cases hn : a.length = 0
  · rw [if_pos hn]
    simp only [List.nil_append]
    rw [hn]
    rfl
  · rw [if_neg hn]
    simp only [List.cons_append, List.nil_append]
    simp only [opcodesLoop, SMatch_mk_i, SMatch_mk_j, SMatch_mk_size]
    rw [if_neg (by omega), if_neg (by omega), if_neg (by omega), if_pos hn]
    simp only [Nat.zero_add]
    rw [if_neg (by omega), if_neg (by omega), if_neg (by omega), if_neg (by simp)]
    rw [if_neg hn]
    rfl

/-- `identify_changes` on identical input and output is empty. -/
theorem identify_changes_self (mm : ModelManagerState) (T : List Char) :
    identify_changes mm T T = [] := by
  simp only [identify_changes]
  rw [getOpcodes_self]
  by_cases hn : (wp_tokenize T).length = 0
  · rw [if_pos hn]
    rfl
  · rw [if_neg hn]
    simp only [changesLoop]
    rw [if_pos trivial]

/-- C2: for every string `T` (including the empty string), running the
change-detection pipeline with original = corrected = `T` yields an empty
edit list, an edit count of zero, `score = 10` and `has_errors = false`,
for any classifier state. -/
theorem c2_self_noop (mm : ModelManagerState) (T prompt : List Char) :
    (correct_text mm T T prompt).changes = [] ∧
    (correct_text mm T T prompt).num_errors = 0 ∧
    (correct_text mm T T prompt).score = 10 ∧
    (correct_text mm T T prompt).has_errors = false := by
  simp only [correct_text, identify_changes_self]
  exact ⟨by trivial, by trivial, by decide, by trivial⟩

end FCE
